import Mathlib

/-!
Verification of the BFT consensus manager (`consensus/bft/bft_manager.go`).

The data model and the operations are shallowly embedded: Go machine
integers become `Nat` (with explicit wraparound modulo `2^64` where uint64
subtraction occurs), pointers that may be nil become `Option`, a Go map
becomes an association list threaded through every mutating call, and a
function that can panic returns `Except Unit`.

The vote and lockset primitives live in the `consensus/bft/types` package,
which is not part of the sources here; those definitions are modelled from
the specification (section 4.2) and carry a doc comment saying so.
-/

namespace BFT

/-- Block hashes are modelled as naturals; `0` is the distinguished nil-hash
(`common.StringToHash("")`, the all-zero digest). -/
def nilHash : Nat := 0

/-- Modelled from the spec: a prevote `(height, round, blockhash, type, signature)`
from `consensus/bft/types`. The signature is represented by the recovered
sender address (`From()`); an unsigned vote has sender `0` until `Sign` runs.
Vote types follow the source encoding: `1` = Block, `2` = Nil. -/
structure Vote where
  height : Nat
  round : Nat
  blockhash : Nat
  voteType : Nat
  sender : Nat
  deriving DecidableEq

/-- Modelled from the spec: a precommit vote, identical in shape to `Vote`
but counted separately (`consensus/bft/types`). -/
structure PrecommitVote where
  height : Nat
  round : Nat
  blockhash : Nat
  voteType : Nat
  sender : Nat
  deriving DecidableEq

/-- Modelled from the spec: the prevote `LockSet` of `consensus/bft/types`:
`eligible_votes_num` plus the list of added votes, append-only. -/
structure LockSet where
  eligibleVotesNum : Nat
  votes : List Vote
  deriving DecidableEq

/-- Modelled from the spec: the `PrecommitLockSet` of `consensus/bft/types`. -/
structure PrecommitLockSet where
  eligibleVotesNum : Nat
  votes : List PrecommitVote
  deriving DecidableEq

/-- Modelled from the spec: `is_valid()` — total votes strictly more than
two thirds of the eligible votes. -/
def LockSet.isValid (ls : LockSet) : Bool :=
  3 * ls.votes.length > 2 * ls.eligibleVotesNum

/-- Modelled from the spec: `is_valid()` for precommit locksets. -/
def PrecommitLockSet.isValid (ls : PrecommitLockSet) : Bool :=
  3 * ls.votes.length > 2 * ls.eligibleVotesNum

/-- Number of Block-type votes in the lockset supporting hash `h`. -/
def LockSet.countHash (ls : LockSet) (h : Nat) : Nat :=
  (ls.votes.filter (fun v => v.voteType = 1 && v.blockhash = h)).length

/-- Number of Block-type precommit votes supporting hash `h`. -/
def PrecommitLockSet.countHash (ls : PrecommitLockSet) (h : Nat) : Nat :=
  (ls.votes.filter (fun v => v.voteType = 1 && v.blockhash = h)).length

/-- Modelled from the spec: `has_quorum()` — `(true, h)` iff some non-nil
hash `h` has strictly more than `2n/3` supporting Block votes, else
`(false, nil-hash)`. -/
def LockSet.hasQuorum (ls : LockSet) : Bool × Nat :=
  match ls.votes.find? (fun v =>
      v.voteType = 1 && v.blockhash ≠ nilHash &&
      3 * ls.countHash v.blockhash > 2 * ls.eligibleVotesNum) with
  | some v => (true, v.blockhash)
  | none => (false, nilHash)

/-- Modelled from the spec: `has_quorum()` for precommit locksets. -/
def PrecommitLockSet.hasQuorum (ls : PrecommitLockSet) : Bool × Nat :=
  match ls.votes.find? (fun v =>
      v.voteType = 1 && v.blockhash ≠ nilHash &&
      3 * ls.countHash v.blockhash > 2 * ls.eligibleVotesNum) with
  | some v => (true, v.blockhash)
  | none => (false, nilHash)

/-- Number of Nil-type votes in a prevote lockset. -/
def LockSet.countNil (ls : LockSet) : Nat :=
  (ls.votes.filter (fun v => v.voteType = 2)).length

/-- Modelled from the spec: `no_quorum()` — the lockset is valid and the
Nil bucket holds strictly more than `2n/3` of the votes. -/
def LockSet.noQuorum (ls : LockSet) : Bool :=
  ls.isValid && 3 * ls.countNil > 2 * ls.eligibleVotesNum

/-- Modelled from the spec: a lockset is bound to one `(height, round)`;
`Height()` reads it off the recorded votes (0 when empty). -/
def LockSet.height (ls : LockSet) : Nat :=
  match ls.votes with
  | [] => 0
  | v :: _ => v.height

/-- Modelled from the spec: `Round()` of a prevote lockset. -/
def LockSet.round (ls : LockSet) : Nat :=
  match ls.votes with
  | [] => 0
  | v :: _ => v.round

/-- Modelled from the spec: `Height()` of a precommit lockset. -/
def PrecommitLockSet.height (ls : PrecommitLockSet) : Nat :=
  match ls.votes with
  | [] => 0
  | v :: _ => v.height

/-- Modelled from the spec: `Round()` of a precommit lockset. -/
def PrecommitLockSet.round (ls : PrecommitLockSet) : Nat :=
  match ls.votes with
  | [] => 0
  | v :: _ => v.round

/-- Modelled from the spec: `Contain` — membership of the identical vote. -/
def LockSet.contain (ls : LockSet) (v : Vote) : Bool :=
  ls.votes.contains v

/-- Modelled from the spec: `Contain` for precommit locksets. -/
def PrecommitLockSet.contain (ls : PrecommitLockSet) (v : PrecommitVote) : Bool :=
  ls.votes.contains v

/-- Modelled from the spec: `add(vote, force_replace)`. At most one vote per
voter: re-adding the identical vote is a no-op `Ok`; a different vote from
the same voter is a `DoubleVote` error unless `force_replace` is set, in
which case the old vote is replaced. A vote for another `(height, round)`
than the recorded ones is a `WrongHeightRound` error. -/
def LockSet.add (ls : LockSet) (v : Vote) (forceReplace : Bool) : Except Unit LockSet :=
  if ls.votes ≠ [] && (v.height ≠ ls.height || v.round ≠ ls.round) then
    .error ()
  else
    match ls.votes.find? (fun w => w.sender = v.sender) with
    | none => .ok { ls with votes := ls.votes ++ [v] }
    | some w =>
      if w = v then .ok ls
      else if forceReplace then
        .ok { ls with votes := (ls.votes.filter (fun u => u.sender ≠ v.sender)) ++ [v] }
      else .error ()

/-- Modelled from the spec: `add` for precommit locksets. -/
def PrecommitLockSet.add (ls : PrecommitLockSet) (v : PrecommitVote) (forceReplace : Bool) :
    Except Unit PrecommitLockSet :=
  if ls.votes ≠ [] && (v.height ≠ ls.height || v.round ≠ ls.round) then
    .error ()
  else
    match ls.votes.find? (fun w => w.sender = v.sender) with
    | none => .ok { ls with votes := ls.votes ++ [v] }
    | some w =>
      if w = v then .ok ls
      else if forceReplace then
        .ok { ls with votes := (ls.votes.filter (fun u => u.sender ≠ v.sender)) ++ [v] }
      else .error ()

/-! ## Proposals -/

/-- A `BlockProposal` (`consensus/bft/types`, shape per the spec):
`(height, round, block, signing_lockset, round_lockset?, signature)`. Of the
block itself only the fields read by the manager are kept: its number, its
hash and its parent hash. -/
structure BlockProposal where
  height : Nat
  round : Nat
  blockNumber : Nat
  blockhash : Nat
  parentHash : Nat
  signingLockset : PrecommitLockSet
  roundLockset : Option LockSet
  sender : Nat
  deriving DecidableEq

/-- A `VotingInstruction` (`consensus/bft/types`):
`(height, round, round_lockset, signature)`. -/
structure VotingInstruction where
  height : Nat
  round : Nat
  roundLockset : LockSet
  sender : Nat
  deriving DecidableEq

/-- The tagged union over the two proposal kinds (`btypes.Proposal`). -/
inductive Proposal where
  | blockProposal (bp : BlockProposal)
  | votingInstruction (vi : VotingInstruction)
  deriving DecidableEq

def Proposal.getHeight : Proposal → Nat
  | .blockProposal bp => bp.height
  | .votingInstruction vi => vi.height

def Proposal.getRound : Proposal → Nat
  | .blockProposal bp => bp.round
  | .votingInstruction vi => vi.round

/-- `From()`: the recovered signer. -/
def Proposal.sender : Proposal → Nat
  | .blockProposal bp => bp.sender
  | .votingInstruction vi => vi.sender

/-- Modelled from the spec: `Blockhash()`. A block proposal exposes its
block's hash; a voting instruction points at the hash its round lockset
reached Quorum on. -/
def Proposal.blockhash : Proposal → Nat
  | .blockProposal bp => bp.blockhash
  | .votingInstruction vi => (vi.roundLockset.hasQuorum).2

/-- Modelled from the spec: `LockSet()` — the attached round lockset. A
round-0 block proposal carries none; the source reads
`ls.EligibleVotesNum != 0` on it, so the absent lockset is represented by an
empty lockset with zero eligible votes. -/
def Proposal.lockSet : Proposal → LockSet
  | .blockProposal bp =>
    match bp.roundLockset with
    | some ls => ls
    | none => { eligibleVotesNum := 0, votes := [] }
  | .votingInstruction vi => vi.roundLockset

/-! ## Go arithmetic

`chosen` computes `int(math.Abs(float64(h - r))) % length` where `h - r` is
a uint64 subtraction. The model makes each conversion explicit: wraparound
modulo `2^64`, rounding of a uint64 to the nearest double (ties to even),
and the amd64 behaviour of an out-of-range float-to-int conversion. -/

/-- `2^64`, the modulus of Go's uint64 arithmetic. -/
def U64 : Nat := 2 ^ 64

/-- Go uint64 subtraction `a - b` (wraps modulo `2^64`). -/
def sub64 (a b : Nat) : Nat := (a + (U64 - b % U64)) % U64

/-- Round `n` to the nearest multiple of `2^s`, ties to the even multiple
(the IEEE-754 default rounding used by Go's uint64-to-float64 conversion). -/
def roundHalfEven (n s : Nat) : Nat :=
  let q := n / 2 ^ s
  let r := n % 2 ^ s
  let half := 2 ^ (s - 1)
  if r < half then q * 2 ^ s
  else if half < r then (q + 1) * 2 ^ s
  else if q % 2 = 0 then q * 2 ^ s else (q + 1) * 2 ^ s

/-- The exact value of `float64(n)` for a uint64 `n`: below `2^53` the
conversion is exact; in each binade above, the value is rounded to the
float's 53-bit precision (spacing `2^1` up to `2^11`). -/
def floatOfUint64 (n : Nat) : Nat :=
  if n < 2 ^ 53 then n
  else if n < 2 ^ 54 then roundHalfEven n 1
  else if n < 2 ^ 55 then roundHalfEven n 2
  else if n < 2 ^ 56 then roundHalfEven n 3
  else if n < 2 ^ 57 then roundHalfEven n 4
  else if n < 2 ^ 58 then roundHalfEven n 5
  else if n < 2 ^ 59 then roundHalfEven n 6
  else if n < 2 ^ 60 then roundHalfEven n 7
  else if n < 2 ^ 61 then roundHalfEven n 8
  else if n < 2 ^ 62 then roundHalfEven n 9
  else if n < 2 ^ 63 then roundHalfEven n 10
  else roundHalfEven n 11

/-- `chosen(h, r, length)` from `bft_manager.go`: uint64 subtraction, float64
conversion (`math.Abs` is the identity here since the argument is the float
of an unsigned value), then `int(...)` and Go's truncated `%`. When the
float exceeds `int64` range the conversion result is implementation
dependent; the amd64 behaviour (`-2^63`) is modelled. -/
def chosen (h r : Nat) (length : Nat) : Int :=
  let sum := sub64 h r
  let f := floatOfUint64 sum
  let i : Int := if f ≤ 2 ^ 63 - 1 then (f : Int) else -(2 ^ 63)
  Int.tmod i (length : Int)

/-- The validator contract: the fixed validator list and this node's
coinbase (`ConsensusContract` holds more collaborators, none read by the
functions modelled here). -/
structure ConsensusContract where
  coinbase : Nat
  validators : List Nat
  deriving DecidableEq

def containsAddress (s : List Nat) (e : Nat) : Bool :=
  s.contains e

def ConsensusContract.isValidators (cc : ConsensusContract) (v : Nat) : Bool :=
  containsAddress cc.validators v

/-- `proposer(height, round)`: index the validator list by `chosen`. A
negative or out-of-range index makes the Go slice access panic, modelled by
`none`. -/
def ConsensusContract.proposer (cc : ConsensusContract) (height round : Nat) : Option Nat :=
  let idx := chosen height round cc.validators.length
  if idx < 0 then none else cc.validators.get? idx.toNat

def ConsensusContract.isProposer (cc : ConsensusContract) (p : Proposal) : Bool :=
  cc.proposer p.getHeight p.getRound = some p.sender

/-- `numEligibleVotes(height)`: 0 at genesis, else the validator count. -/
def ConsensusContract.numEligibleVotes (cc : ConsensusContract) (height : Nat) : Nat :=
  if height = 0 then 0 else cc.validators.length

/-! ## Go maps

A Go map is modelled as an association list; insertion of a fresh key
appends, so the list order is insertion order. The functions modelled here
index maps by explicit keys (never by Go's randomized iteration order),
except `cleanup`, whose delete-while-iterating loop is order independent. -/

def mlookup {α : Type} : List (Nat × α) → Nat → Option α
  | [], _ => none
  | e :: rest, k => if e.1 = k then some e.2 else mlookup rest k

def minsert {α : Type} : List (Nat × α) → Nat → α → List (Nat × α)
  | [], k, v => [(k, v)]
  | e :: rest, k, v => if e.1 = k then (k, v) :: rest else e :: minsert rest k v

def msize {α : Type} (m : List (Nat × α)) : Nat := m.length

def mkeys {α : Type} (m : List (Nat × α)) : List Nat := m.map Prod.fst

def maxKey {α : Type} (m : List (Nat × α)) : Nat := (mkeys m).foldr max 0

/-! ## Round and height managers

Back-references (`rm.hm`, `rm.cm`, `hm.cm`) become explicit arguments; the
consensus-manager state mutated by a call is threaded through and returned.
Wall-clock instants (`float64` seconds in the source) are rationals and
`Now()` is an explicit argument. -/

/-- A `RoundManager`: the two locksets of `(height, round)`, the recorded
proposal, the node's own vote locks, and the two timeout deadlines. -/
structure RoundManager where
  round : Nat
  height : Nat
  lockset : LockSet
  precommitLockset : PrecommitLockSet
  proposal : Option Proposal
  voteLock : Option Vote
  precommitVoteLock : Option PrecommitVote
  timeoutTime : ℚ
  timeoutPrecommit : ℚ
  deriving DecidableEq

/-- `NewRoundManager`: fresh empty locksets sized by `numEligibleVotes`,
no proposal, no locks, zeroed timeouts. -/
def newRoundManager (cc : ConsensusContract) (height round : Nat) : RoundManager :=
  { round := round
    height := height
    lockset := { eligibleVotesNum := cc.numEligibleVotes height, votes := [] }
    precommitLockset := { eligibleVotesNum := cc.numEligibleVotes height, votes := [] }
    proposal := none
    voteLock := none
    precommitVoteLock := none
    timeoutTime := 0
    timeoutPrecommit := 0 }

/-- A `HeightManager`: the `round -> RoundManager` map and the active round. -/
structure HeightManager where
  height : Nat
  rounds : List (Nat × RoundManager)
  activeRound : Nat
  deriving DecidableEq

def newHeightManager (height : Nat) : HeightManager :=
  { height := height, rounds := [], activeRound := 0 }

/-- `getRoundManager(r)`: return the round manager for `r`, creating and
inserting a fresh one when the key is absent (so a read mutates the map). -/
def HeightManager.getRoundManager (cc : ConsensusContract) (hm : HeightManager) (r : Nat) :
    RoundManager × HeightManager :=
  match mlookup hm.rounds r with
  | some rm => (rm, hm)
  | none =>
    let rm := newRoundManager cc hm.height r
    (rm, { hm with rounds := minsert hm.rounds r rm })

/-- The loop body shared by `LastVoteLock`: indices `i-1, i-2, ..., 0` remain
to scan (the Go loop fixes its start at `len(hm.rounds) - 1` once). -/
def lastVoteLockAux (cc : ConsensusContract) : Nat → HeightManager → Option Vote × HeightManager
  | 0, hm => (none, hm)
  | i + 1, hm =>
    let (rm, hm) := hm.getRoundManager cc i
    if rm.voteLock.isSome then (rm.voteLock, hm) else lastVoteLockAux cc i hm

/-- `LastVoteLock()`: the vote lock of the highest index in
`0 .. len(rounds)-1` whose round manager has one. -/
def HeightManager.LastVoteLock (cc : ConsensusContract) (hm : HeightManager) :
    Option Vote × HeightManager :=
  lastVoteLockAux cc (msize hm.rounds) hm

/-- Loop body of `LastPrecommitVoteLock`: the scan stops at the highest
index whose `voteLock` is set and returns that round's `precommitVoteLock`
(which may itself be nil). -/
def lastPrecommitVoteLockAux (cc : ConsensusContract) :
    Nat → HeightManager → Option PrecommitVote × HeightManager
  | 0, hm => (none, hm)
  | i + 1, hm =>
    let (rm, hm) := hm.getRoundManager cc i
    if rm.voteLock.isSome then (rm.precommitVoteLock, hm)
    else lastPrecommitVoteLockAux cc i hm

/-- `LastPrecommitVoteLock()` from `bft_manager.go`. -/
def HeightManager.LastPrecommitVoteLock (cc : ConsensusContract) (hm : HeightManager) :
    Option PrecommitVote × HeightManager :=
  lastPrecommitVoteLockAux cc (msize hm.rounds) hm

/-- Loop body of `lastValidLockset`. -/
def lastValidLocksetAux (cc : ConsensusContract) :
    Nat → HeightManager → Option LockSet × HeightManager
  | 0, hm => (none, hm)
  | i + 1, hm =>
    let (rm, hm) := hm.getRoundManager cc i
    if rm.lockset.isValid then (some rm.lockset, hm) else lastValidLocksetAux cc i hm

/-- `lastValidLockset()`: the highest-index valid prevote lockset. -/
def HeightManager.lastValidLockset (cc : ConsensusContract) (hm : HeightManager) :
    Option LockSet × HeightManager :=
  lastValidLocksetAux cc (msize hm.rounds) hm

/-- Loop body of `lastValidPrecommitLockset`. -/
def lastValidPrecommitLocksetAux (cc : ConsensusContract) :
    Nat → HeightManager → Option PrecommitLockSet × HeightManager
  | 0, hm => (none, hm)
  | i + 1, hm =>
    let (rm, hm) := hm.getRoundManager cc i
    if rm.precommitLockset.isValid then (some rm.precommitLockset, hm)
    else lastValidPrecommitLocksetAux cc i hm

/-- `lastValidPrecommitLockset()`: the highest-index valid precommit lockset. -/
def HeightManager.lastValidPrecommitLockset (cc : ConsensusContract) (hm : HeightManager) :
    Option PrecommitLockSet × HeightManager :=
  lastValidPrecommitLocksetAux cc (msize hm.rounds) hm

/-- Loop body of `lastQuorumPrecommitLockSet`. The Go loop re-reads
`len(hm.rounds)` every iteration while `getRoundManager` grows the map, so
the index is bounded by a moving size; the recursion is driven by an
explicit fuel shown sufficient below. An `Except.error` is the source's
`panic("multiple valid locksets on different proposals")`; the outer
`none` means the fuel ran out (never, for sufficient fuel). -/
def lastQuorumPLSAux (cc : ConsensusContract) :
    Nat → Nat → HeightManager → Option PrecommitLockSet →
    Option (Except Unit (Option PrecommitLockSet × HeightManager))
  | 0, _, _, _ => none
  | fuel + 1, i, hm, found =>
    if i < msize hm.rounds then
      let (rm, hm) := hm.getRoundManager cc i
      let ls := rm.precommitLockset
      if ls.isValid then
        match ls.hasQuorum with
        | (true, hash) =>
          match found with
          | some f =>
            if (f.hasQuorum).2 ≠ hash then some (.error ())
            else lastQuorumPLSAux cc fuel (i + 1) hm (some ls)
          | none => lastQuorumPLSAux cc fuel (i + 1) hm (some ls)
        | (false, _) => lastQuorumPLSAux cc fuel (i + 1) hm found
      else lastQuorumPLSAux cc fuel (i + 1) hm found
    else some (.ok (found, hm))

/-- `lastQuorumPrecommitLockSet()`: scan the rounds in increasing index
order for valid locksets with quorum; two distinct quorum hashes panic
(`Except.error`); otherwise the last quorum lockset found (or none) is
returned. The fuel passed here is proved sufficient for maps with distinct
keys, so the fallback arm is dead. -/
def HeightManager.lastQuorumPrecommitLockSet (cc : ConsensusContract) (hm : HeightManager) :
    Except Unit (Option PrecommitLockSet × HeightManager) :=
  match lastQuorumPLSAux cc (2 * (maxKey hm.rounds + 2) + msize hm.rounds) 0 hm none with
  | some r => r
  | none => .ok (none, hm)

/-! ## Consensus manager

The chain is out of scope; the current head enters the state as its number
and hash. The `found` channel is a readiness flag plus the list of block
hashes handed over; persistent `"precommitLockset:<hash>"` writes are an
association list. -/

/-- The mutable `ConsensusManager` state read or written by the modelled
operations. -/
structure CMState where
  headNumber : Nat
  headHash : Nat
  readyValidators : List Nat
  heights : List (Nat × HeightManager)
  blockCandidates : List (Nat × BlockProposal)
  storedLocksets : List (Nat × PrecommitLockSet)
  foundChan : Option Bool
  foundSent : List Nat
  syncSeen : List Nat
  enable : Bool
  deriving DecidableEq

/-- `Height() = chain.CurrentBlock().NumberU64() + 1`. -/
def CMState.Height (cm : CMState) : Nat := cm.headNumber + 1

/-- `storePrecommitLockset`: persist under `"precommitLockset:<hash>"`. -/
def CMState.storePrecommitLockset (cm : CMState) (blockhash : Nat) (pls : PrecommitLockSet) :
    CMState :=
  { cm with storedLocksets := minsert cm.storedLocksets blockhash pls }

def CMState.getHeightManager (cm : CMState) (h : Nat) : HeightManager × CMState :=
  match mlookup cm.heights h with
  | some hm => (hm, cm)
  | none =>
    let hm := newHeightManager h
    (hm, { cm with heights := minsert cm.heights h hm })

/-- Write back a height manager mutated through its Go pointer. -/
def CMState.putHeightManager (cm : CMState) (h : Nat) (hm : HeightManager) : CMState :=
  { cm with heights := minsert cm.heights h hm }

/-- `commitPrecommitLockset(hash, pls)` from `bft_manager.go`. When a block
candidate for `hash` exists, its parent must equal the current head; then if
the lockset's quorum hash matches, the block goes out on the `found` channel
(non-blocking select: only when a receiver is ready), the lockset is
persisted under the quorum hash, and processing is disabled. Without a
candidate, a quorum lockset is persisted only. -/
def CMState.commitPrecommitLockset (cm : CMState) (hash : Nat)
    (pls : Option PrecommitLockSet) : CMState :=
  match mlookup cm.blockCandidates hash with
  | some proposal =>
    if proposal.parentHash ≠ cm.headHash then cm
    else
      match pls with
      | some ls =>
        let qhash := (ls.hasQuorum).2
        if proposal.blockhash = qhash then
          match cm.foundChan with
          | some ready =>
            if ready then
              let cm2 := cm.storePrecommitLockset qhash ls
              { cm2 with foundSent := cm2.foundSent ++ [proposal.blockhash], enable := false }
            else cm
          | none => cm
        else cm
      | none => cm
  | none =>
    match pls with
    | some ls =>
      match ls.hasQuorum with
      | (true, qhash) => cm.storePrecommitLockset qhash ls
      | (false, _) => cm
    | none => cm

/-- `cleanup()`: drop block candidates whose height the head has reached
(`head >= height`) and height managers strictly below the head
(`height < head`). Go's delete-while-ranging is a filter. -/
def CMState.cleanup (cm : CMState) : CMState :=
  let cm := { cm with
    blockCandidates :=
      cm.blockCandidates.filter (fun e => decide (e.2.height > cm.headNumber)) }
  { cm with
    heights := cm.heights.filter (fun e => decide (¬ e.2.height < cm.headNumber)) }

def CMState.markReady (cm : CMState) (addr : Nat) : CMState :=
  if cm.readyValidators.contains addr then cm
  else { cm with readyValidators := cm.readyValidators ++ [addr] }

def CMState.addBlockCandidates (cm : CMState) (bp : BlockProposal) : CMState :=
  { cm with blockCandidates := minsert cm.blockCandidates bp.blockhash bp }

/-! ## Votes through the managers -/

def newVote (height round blockhash voteType : Nat) : Vote :=
  { height := height, round := round, blockhash := blockhash,
    voteType := voteType, sender := 0 }

def newPrecommitVote (height round blockhash voteType : Nat) : PrecommitVote :=
  { height := height, round := round, blockhash := blockhash,
    voteType := voteType, sender := 0 }

/-- `cm.Sign`: signing makes `From()` recover the node's own address. -/
def Vote.sign (v : Vote) (coinbase : Nat) : Vote := { v with sender := coinbase }

def PrecommitVote.sign (v : PrecommitVote) (coinbase : Nat) : PrecommitVote :=
  { v with sender := coinbase }

/-- `RoundManager.addVote(vote, force_replace, process)`: add to the prevote
lockset unless already contained (`process` is unused in the source). -/
def RoundManager.addVote (rm : RoundManager) (vote : Vote)
    (forceReplace : Bool) (_process : Bool) : Bool × RoundManager :=
  if ¬ rm.lockset.contain vote then
    match rm.lockset.add vote forceReplace with
    | .error _ => (false, rm)
    | .ok ls => (true, { rm with lockset := ls })
  else (false, rm)

/-- `RoundManager.addPrecommitVote`: add to the precommit lockset; when the
addition completes a quorum, trigger `commitPrecommitLockset`. -/
def RoundManager.addPrecommitVote (rm : RoundManager) (cm : CMState) (vote : PrecommitVote)
    (forceReplace : Bool) (_process : Bool) : Bool × RoundManager × CMState :=
  if ¬ rm.precommitLockset.contain vote then
    match rm.precommitLockset.add vote forceReplace with
    | .error _ => (false, rm, cm)
    | .ok pls =>
      let rm := { rm with precommitLockset := pls }
      match pls.hasQuorum with
      | (true, hash) => (true, rm, cm.commitPrecommitLockset hash (some pls))
      | (false, _) => (true, rm, cm)
  else (false, rm, cm)

/-- `HeightManager.addVote(v, process)`: reject non-validators, then route to
the vote's round, forcing replacement for the node's own votes. -/
def HeightManager.addVote (cc : ConsensusContract) (hm : HeightManager) (v : Vote)
    (process : Bool) : Bool × HeightManager :=
  if ¬ cc.isValidators v.sender then (false, hm)
  else
    let isOwnVote := v.sender = cc.coinbase
    let (rm, hm) := hm.getRoundManager cc v.round
    let (b, rm) := rm.addVote v isOwnVote process
    (b, { hm with rounds := minsert hm.rounds v.round rm })

/-- `HeightManager.addPrecommitVote(v, process)`. -/
def HeightManager.addPrecommitVote (cc : ConsensusContract) (hm : HeightManager) (cm : CMState)
    (v : PrecommitVote) (process : Bool) : Bool × HeightManager × CMState :=
  if ¬ cc.isValidators v.sender then (false, hm, cm)
  else
    let isOwnVote := v.sender = cc.coinbase
    let (rm, hm) := hm.getRoundManager cc v.round
    let (b, rm, cm) := rm.addPrecommitVote cm v isOwnVote process
    (b, { hm with rounds := minsert hm.rounds v.round rm }, cm)

/-- `RoundManager.addProposal(p)`: record the first proposal; re-adding one
with the same blockhash succeeds without change, a different blockhash is
rejected. -/
def RoundManager.addProposal (rm : RoundManager) (p : Proposal) : Bool × RoundManager :=
  match rm.proposal with
  | none => (true, { rm with proposal := some p })
  | some q => if q.blockhash = p.blockhash then (true, rm) else (false, rm)

/-- `HeightManager.addProposal(p)`: route to the proposal's round. -/
def HeightManager.addProposal (cc : ConsensusContract) (hm : HeightManager) (p : Proposal) :
    Bool × HeightManager :=
  let (rm, hm) := hm.getRoundManager cc p.getRound
  let (b, rm) := rm.addProposal p
  (b, { hm with rounds := minsert hm.rounds p.getRound rm })

/-- `setTimeoutPrecommit`: arm the precommit deadline (hard-coded base 2,
factor 1.5) unless already armed. -/
def RoundManager.setTimeoutPrecommit (rm : RoundManager) (now : Int) : RoundManager :=
  if rm.timeoutPrecommit ≠ 0 then rm
  else { rm with timeoutPrecommit := (now : ℚ) + 2 * (3 / 2 : ℚ) ^ rm.round }

/-- `RoundManager.vote()` (the prevote rule). The `Except.error` result is
the runtime panic: with a `VotingInstruction` whose lockset has quorum and
no precommit vote lock at the height, the source dereferences the nil
`lastPrecommitVoteLock` in `bp.LockSet().Round() > lastPrecommitVoteLock.Round`. -/
def RoundManager.vote (cc : ConsensusContract) (hm : HeightManager) (rm : RoundManager)
    (now : Int) : Except Unit (Option Vote × RoundManager × HeightManager) :=
  if rm.voteLock.isSome then .ok (none, rm, hm)
  else
    let (lpvl, hm) := hm.LastPrecommitVoteLock cc
    let elseBranch : Except Unit (Option Vote) :=
      match rm.proposal with
        | some (.votingInstruction vi) =>
          if ((Proposal.votingInstruction vi).lockSet.hasQuorum).1 then
            match lpvl with
            | none => .error ()
            | some l =>
              if (Proposal.votingInstruction vi).lockSet.round > l.round then
                .ok (some (newVote rm.height rm.round (Proposal.votingInstruction vi).blockhash 1))
              else .ok none
          else
            match lpvl with
            | none => .ok (some (newVote rm.height rm.round nilHash 2))
            | some _ => .ok none
        | some (.blockProposal bp) =>
          .ok (some (newVote rm.height rm.round (Proposal.blockProposal bp).blockhash 1))
        | none =>
          if rm.timeoutTime ≠ 0 ∧ (now : ℚ) ≥ rm.timeoutTime then
            .ok (some (newVote rm.height rm.round nilHash 2))
          else .ok none
    let voteE : Except Unit (Option Vote) :=
      match lpvl with
      | some l =>
        if l.voteType = 1 then .ok (some (newVote rm.height rm.round l.blockhash 1))
        else elseBranch
      | none => elseBranch
    match voteE with
    | .error e => .error e
    | .ok none => .ok (none, rm, hm)
    | .ok (some v) =>
      let v := v.sign cc.coinbase
      let rm := { rm with voteLock := some v }
      let (_, rm) := rm.addVote v false true
      let rm := rm.setTimeoutPrecommit now
      .ok (some v, rm, hm)

/-- `RoundManager.votePrecommit()` (the precommit rule): on prevote quorum a
Block precommit that also sets the precommit vote lock; after the prevote
timeout a Nil precommit that does not. -/
def RoundManager.votePrecommit (cc : ConsensusContract) (rm : RoundManager) (cm : CMState)
    (now : Int) : Option PrecommitVote × RoundManager × CMState :=
  if rm.precommitVoteLock.isSome then (none, rm, cm)
  else
    let vote : Option PrecommitVote :=
      if rm.lockset.isValid then
        match rm.lockset.hasQuorum with
        | (true, blockhash) => some (newPrecommitVote rm.height rm.round blockhash 1)
        | (false, _) =>
          if rm.timeoutTime ≠ 0 ∧ (now : ℚ) ≥ rm.timeoutTime then
            some (newPrecommitVote rm.height rm.round nilHash 2)
          else none
      else none
    match vote with
    | some v =>
      let v := v.sign cc.coinbase
      let rm := if v.voteType = 1 then { rm with precommitVoteLock := some v } else rm
      let (_, rm, cm) := rm.addPrecommitVote cm v false true
      (some v, rm, cm)
    | none => (none, rm, cm)

/-! ## Proposal ingress -/

/-- `addBlockProposal`: require quorum of the signing lockset at `height-1`,
feed its precommit votes into that height's manager, and record the block
candidate. -/
def CMState.addBlockProposal (cc : ConsensusContract) (cm : CMState) (bp : BlockProposal) :
    Bool × CMState :=
  let result := (bp.signingLockset.hasQuorum).1
  let slH := bp.signingLockset.height
  if ¬ result ∨ slH ≠ sub64 bp.height 1 then (false, cm)
  else
    let (hm, cm) := cm.getHeightManager slH
    let (hm, cm) := bp.signingLockset.votes.foldl
      (fun (acc : HeightManager × CMState) v =>
        let (_, hm2, cm2) := HeightManager.addPrecommitVote cc acc.1 acc.2 v false
        (hm2, cm2)) (hm, cm)
    let cm := cm.putHeightManager slH hm
    (true, cm.addBlockCandidates bp)

/-- The tail of `AddProposal`: dispatch to
`getHeightManager(p.GetHeight()).addProposal(p)`. -/
def CMState.dispatchProposal (cc : ConsensusContract) (cm : CMState) (p : Proposal) :
    Bool × CMState :=
  let (hm, cm) := cm.getHeightManager p.getHeight
  let (isValid, hm) := hm.addProposal cc p
  (isValid, cm.putHeightManager p.getHeight hm)

/-- `ConsensusManager.AddProposal(p, peer)`: the receiver-side validity
checks, then dispatch. `synchronizer.onProposal` only records peer
knowledge; it is modelled by the `syncSeen` log. -/
def CMState.AddProposal (cc : ConsensusContract) (cm : CMState) (p : Proposal)
    (peer : Option Nat) : Bool × CMState :=
  if p.getHeight < cm.Height then (false, cm)
  else if ¬ cc.isValidators p.sender ∨ ¬ cc.isProposer p then (false, cm)
  else
    let cm := cm.markReady p.sender
    let ls := p.lockSet
    if ¬ ls.isValid ∧ ls.eligibleVotesNum ≠ 0 then (false, cm)
    else if p.getRound ≠ 0 ∧ ls.height ≠ p.getHeight then (false, cm)
    else if p.getRound ≠ 0 ∧ sub64 p.getRound ls.round ≠ 1 then (false, cm)
    else
      match p with
      | .blockProposal bp =>
        let cm := if peer.isSome then { cm with syncSeen := cm.syncSeen ++ [bp.blockhash] }
                  else cm
        if bp.blockNumber ≠ bp.height then (false, cm)
        else if bp.round ≠ 0 ∧ ¬ ls.noQuorum then (false, cm)
        else if ¬ (bp.signingLockset.hasQuorum).1 then (false, cm)
        else
          let (_, cm) := cm.addBlockProposal cc bp
          cm.dispatchProposal cc p
      | .votingInstruction vi =>
        if ¬ (vi.roundLockset.round = sub64 vi.round 1 ∧ vi.height = vi.roundLockset.height) then
          (false, cm)
        else if vi.round = 0 then (false, cm)
        else if ¬ (vi.roundLockset.hasQuorum).1 then (false, cm)
        else cm.dispatchProposal cc p

/-! ## Shared example states -/

/-- A four-validator contract; this node is validator `1`. -/
def ccEx : ConsensusContract := ⟨1, [1, 2, 3, 4]⟩

/-- A state whose only block candidate (hash `7`) has parent `8` while the
head hash is `9`. -/
def cmC7 : CMState :=
  { headNumber := 5, headHash := 9, readyValidators := [], heights := []
    blockCandidates := [(7, ⟨6, 0, 6, 7, 8, ⟨4, []⟩, none, 1⟩)], storedLocksets := []
    foundChan := some true, foundSent := [], syncSeen := [], enable := true }

/-- A state whose head is block 5 while a height manager for height 5 and a
height manager for height 6 are live. -/
def cmC8 : CMState :=
  { headNumber := 5, headHash := 9, readyValidators := []
    heights := [(5, newHeightManager 5), (6, newHeightManager 6)], blockCandidates := []
    storedLocksets := [], foundChan := none, foundSent := [], syncSeen := [], enable := true }

/-- A valid prevote lockset of three Nil votes out of four validators:
no quorum is possible. -/
def lsC4 : LockSet := ⟨4, [⟨1, 0, 0, 2, 1⟩, ⟨1, 0, 0, 2, 2⟩, ⟨1, 0, 0, 2, 3⟩]⟩

/-- A round manager at `(1, 0)` whose prevote timeout (at time 5) elapsed. -/
def rmC4 : RoundManager :=
  { newRoundManager ccEx 1 0 with lockset := lsC4, timeoutTime := 5 }

/-- A quiescent consensus state used as context for local voting. -/
def cmEx : CMState :=
  { headNumber := 0, headHash := 3, readyValidators := [1], heights := []
    blockCandidates := [], storedLocksets := [], foundChan := none, foundSent := []
    syncSeen := [], enable := true }

/-- A prevote lockset at `(1, 0)` with quorum on hash `7` (three of four). -/
def lsC3 : LockSet := ⟨4, [⟨1, 0, 7, 1, 1⟩, ⟨1, 0, 7, 1, 2⟩, ⟨1, 0, 7, 1, 3⟩]⟩

/-- A voting instruction for round 1 carrying that quorum lockset. -/
def viC3 : VotingInstruction := ⟨1, 1, lsC3, 2⟩

/-- Round manager at `(1, 1)`: no vote lock, the instruction recorded. -/
def rmC3 : RoundManager :=
  { newRoundManager ccEx 1 1 with proposal := some (.votingInstruction viC3) }

/-- Height manager for height 1 with no precommit vote lock at any round. -/
def hmC3 : HeightManager := ⟨1, [(1, rmC3)], 1⟩

/-- The `voteLock` recorded at round index `j` of a height manager's map
(`none` for a missing round, matching the empty round manager a scan would
create there). -/
def roundVoteLock (hm : HeightManager) (j : Nat) : Option Vote :=
  match mlookup hm.rounds j with
  | some rm => rm.voteLock
  | none => none

/-- The `precommitVoteLock` recorded at round index `j` (`none` when the
round is missing). -/
def roundPrecommitVoteLock (hm : HeightManager) (j : Nat) : Option PrecommitVote :=
  match mlookup hm.rounds j with
  | some rm => rm.precommitVoteLock
  | none => none

/-- Round 0 of the C9 scenario: the node prevoted hash 7 and precommitted
it, so both locks are set. -/
def rmC9a : RoundManager :=
  { newRoundManager ccEx 1 0 with
      voteLock := some ⟨1, 0, 7, 1, 1⟩
      precommitVoteLock := some ⟨1, 0, 7, 1, 1⟩ }

/-- Round 1 of the C9 scenario: the node prevoted Nil (voteLock set) but
emitted no Block precommit, so its precommit lock is unset. -/
def rmC9b : RoundManager :=
  { newRoundManager ccEx 1 1 with voteLock := some ⟨1, 1, 0, 2, 1⟩ }

/-- Height 1 with the two rounds above. -/
def hmC9 : HeightManager := ⟨1, [(0, rmC9a), (1, rmC9b)], 1⟩

/-- The prevote lockset a scan observes at index `j`: the stored one, or the
fresh empty lockset of the round manager the scan would create. -/
def roundLockset (cc : ConsensusContract) (hm : HeightManager) (j : Nat) : LockSet :=
  match mlookup hm.rounds j with
  | some rm => rm.lockset
  | none => (newRoundManager cc hm.height j).lockset

/-- The precommit lockset a scan observes at index `j`. -/
def roundPrecommitLockset (cc : ConsensusContract) (hm : HeightManager) (j : Nat) :
    PrecommitLockSet :=
  match mlookup hm.rounds j with
  | some rm => rm.precommitLockset
  | none => (newRoundManager cc hm.height j).precommitLockset

/-- A round manager (used at the non-contiguous key 5) that holds data of
every kind: both locks set and both locksets valid with quorum on hash 7. -/
def rmC10 : RoundManager :=
  { newRoundManager ccEx 5 5 with
      voteLock := some ⟨5, 5, 7, 1, 1⟩
      precommitVoteLock := some ⟨5, 5, 7, 1, 1⟩
      lockset := ⟨4, [⟨5, 5, 7, 1, 1⟩, ⟨5, 5, 7, 1, 2⟩, ⟨5, 5, 7, 1, 3⟩]⟩
      precommitLockset := ⟨4, [⟨5, 5, 7, 1, 1⟩, ⟨5, 5, 7, 1, 2⟩, ⟨5, 5, 7, 1, 3⟩]⟩ }

/-- A height manager whose only populated round is the non-contiguous key 5
(`len(rounds) = 1`). -/
def hmC10 : HeightManager := ⟨5, [(5, rmC10)], 0⟩

/-- The valid-with-quorum precommit lockset stored at key `j` of a rounds
map, when there is one. -/
def quorumPLSAt (m : List (Nat × RoundManager)) (j : Nat) : Option PrecommitLockSet :=
  match mlookup m j with
  | some rm =>
    if rm.precommitLockset.isValid = true ∧ (rm.precommitLockset.hasQuorum).1 = true then
      some rm.precommitLockset
    else none
  | none => none

/-- Reference scan for `lastQuorumPrecommitLockSet`: walk the indices
`i .. i+cnt-1` of a fixed rounds map in increasing order, remember the last
valid lockset with quorum, and fail (the panic) at the first quorum hash
that disagrees with the remembered one. The loop of the source is proved
equal to this scan below. -/
def specScan : Nat → Nat → List (Nat × RoundManager) → Option PrecommitLockSet →
    Except Unit (Option PrecommitLockSet)
  | 0, _, _, found => .ok found
  | cnt + 1, i, m, found =>
    match mlookup m i with
    | none => specScan cnt (i + 1) m found
    | some rm =>
      if rm.precommitLockset.isValid = true then
        match rm.precommitLockset.hasQuorum with
        | (true, hash) =>
          match found with
          | some f =>
            if (f.hasQuorum).2 ≠ hash then .error ()
            else specScan cnt (i + 1) m (some rm.precommitLockset)
          | none => specScan cnt (i + 1) m (some rm.precommitLockset)
        | (false, _) => specScan cnt (i + 1) m found
      else specScan cnt (i + 1) m found

/-! ## Claim C2 -/

/-- Claim C2: `proposer(h, r)` is claimed to pick the validator at index
`|h - r| mod n` for every input, the index always in range. The float64
arithmetic of `chosen` already breaks this for a large in-range difference:
at `h = 2^53 + 1`, `r = 0`, `n = 3` the uint64 difference `2^53 + 1` rounds
to `2^53` during the float64 conversion, so the code selects index `2`
(validator `30` of `[10, 20, 30]`) while `|h - r| mod 3 = 0` selects index
`0`. -/
theorem chosen_large_height_diverges :
    chosen (2 ^ 53 + 1) 0 3 = 2 ∧
    ConsensusContract.proposer ⟨9, [10, 20, 30]⟩ (2 ^ 53 + 1) 0 = some 30 ∧
    (2 ^ 53 + 1 : Nat) % 3 = 0 := by
  refine ⟨by decide, by decide, by decide⟩

/-! ## Claim C6 -/

/-- Claim C6: `RoundManager.addProposal` stores the first proposal received
and returns true; a later proposal with the same blockhash returns true and
one with a different blockhash returns false, both leaving the stored
proposal unchanged, so the proposal field is set at most once per round. -/
theorem addProposal_single_proposal_rule (rm : RoundManager) (p q : Proposal) :
    (rm.proposal = none →
      rm.addProposal p = (true, { rm with proposal := some p })) ∧
    (rm.proposal = some q → q.blockhash = p.blockhash → rm.addProposal p = (true, rm)) ∧
    (rm.proposal = some q → q.blockhash ≠ p.blockhash → rm.addProposal p = (false, rm)) := by
  refine ⟨fun h => ?_, fun h hbh => ?_, fun h hbh => ?_⟩
  · simp [RoundManager.addProposal, h]
  · simp [RoundManager.addProposal, h, hbh]
  · simp [RoundManager.addProposal, h, hbh]

theorem addProposal_single_proposal_rule_witness :
    RoundManager.addProposal (newRoundManager ccEx 1 0)
        (Proposal.blockProposal ⟨1, 0, 1, 7, 3, ⟨4, []⟩, none, 1⟩)
      = (true, { newRoundManager ccEx 1 0 with
          proposal := some (Proposal.blockProposal ⟨1, 0, 1, 7, 3, ⟨4, []⟩, none, 1⟩) }) :=
  (addProposal_single_proposal_rule (newRoundManager ccEx 1 0)
    (Proposal.blockProposal ⟨1, 0, 1, 7, 3, ⟨4, []⟩, none, 1⟩)
    (Proposal.blockProposal ⟨1, 0, 1, 7, 3, ⟨4, []⟩, none, 1⟩)).1 rfl

/-! ## Claim C7 -/

/-- Claim C7: when a block candidate for `hash` exists but its parent hash
differs from the current head's hash, `commitPrecommitLockset` returns with
the state unchanged: nothing is sent on `found`, nothing is written to the
store, `Enable` keeps its value. -/
theorem commitPrecommitLockset_wrong_parent_noop (cm : CMState) (hash : Nat)
    (pls : Option PrecommitLockSet) (bp : BlockProposal)
    (hc : mlookup cm.blockCandidates hash = some bp)
    (hp : bp.parentHash ≠ cm.headHash) :
    cm.commitPrecommitLockset hash pls = cm := by
  unfold CMState.commitPrecommitLockset
  rw [hc]
  simp [hp]

theorem commitPrecommitLockset_wrong_parent_noop_witness :
    CMState.commitPrecommitLockset cmC7 7 none = cmC7 :=
  commitPrecommitLockset_wrong_parent_noop cmC7 7 none
    ⟨6, 0, 6, 7, 8, ⟨4, []⟩, none, 1⟩ (by decide) (by decide)

/-! ## Claim C8 -/

/-- Claim C8 counterexample: the claim says no `HeightManager` at or below
the head survives `cleanup()`, but the source deletes only heights strictly
below the head (`height < head`), so the height-5 manager survives a head
at number 5. -/
theorem cleanup_keeps_heightManager_at_head :
    ((CMState.cleanup cmC8).heights = [(5, newHeightManager 5), (6, newHeightManager 6)] ∧
      (newHeightManager 5).height ≤ cmC8.headNumber) := by
  refine ⟨by decide, by decide⟩

/-- Claim C8 (amended): after `cleanup()` no block candidate with height at
or below the head remains, and no height manager with height strictly below
the head remains; a height manager whose height equals the head number is
retained. -/
theorem cleanup_drops_below_head (cm : CMState) :
    (∀ e ∈ (CMState.cleanup cm).blockCandidates, cm.headNumber < e.2.height) ∧
    (∀ e ∈ (CMState.cleanup cm).heights, cm.headNumber ≤ e.2.height) ∧
    (∀ e ∈ cm.heights, e.2.height = cm.headNumber → e ∈ (CMState.cleanup cm).heights) := by
  refine ⟨?_, ?_, ?_⟩
  · intro e he
    simp only [CMState.cleanup, List.mem_filter, decide_eq_true_eq] at he
    exact he.2
  · intro e he
    simp only [CMState.cleanup, List.mem_filter, decide_eq_true_eq] at he
    omega
  · intro e he hh
    simp only [CMState.cleanup, List.mem_filter, decide_eq_true_eq]
    exact ⟨he, by omega⟩

theorem cleanup_drops_below_head_witness :
    cmC8.headNumber ≤ (6, newHeightManager 6).2.height :=
  (cleanup_drops_below_head cmC8).2.1 (6, newHeightManager 6) (by decide)

/-! ## Claim C4 -/

lemma addPrecommitVote_keeps_precommitVoteLock (rm : RoundManager) (cm : CMState)
    (v : PrecommitVote) (f p : Bool) :
    (rm.addPrecommitVote cm v f p).2.1.precommitVoteLock = rm.precommitVoteLock := by
  unfold RoundManager.addPrecommitVote
  split
  · rcases h : rm.precommitLockset.add v f with e | pls
    · simp
    · rcases hq : pls.hasQuorum with ⟨b, hh⟩
      cases b <;> simp [hq]
  · rfl

lemma votePrecommit_on_quorum (cc : ConsensusContract) (rm : RoundManager) (cm : CMState)
    (now : Int) (qh : Nat) (hpl : rm.precommitVoteLock = none)
    (hv : rm.lockset.isValid = true) (hq : rm.lockset.hasQuorum = (true, qh)) :
    ∃ v, (rm.votePrecommit cc cm now).1 = some v ∧ v.voteType = 1 ∧
      (rm.votePrecommit cc cm now).2.1.precommitVoteLock = some v := by
  unfold RoundManager.votePrecommit
  simp only [hpl, hv, hq, Option.isSome_none, Bool.false_eq_true, if_false, if_true,
    eq_self_iff_true]
  refine ⟨_, rfl, rfl, ?_⟩
  rw [addPrecommitVote_keeps_precommitVoteLock]
  rfl

lemma votePrecommit_on_timeout (cc : ConsensusContract) (rm : RoundManager) (cm : CMState)
    (now : Int) (qh : Nat) (hpl : rm.precommitVoteLock = none)
    (hv : rm.lockset.isValid = true) (hq : rm.lockset.hasQuorum = (false, qh))
    (ht1 : rm.timeoutTime ≠ 0) (ht2 : (now : ℚ) ≥ rm.timeoutTime) :
    ∃ v, (rm.votePrecommit cc cm now).1 = some v ∧ v.voteType = 2 ∧
      (rm.votePrecommit cc cm now).2.1.precommitVoteLock = rm.precommitVoteLock := by
  unfold RoundManager.votePrecommit
  simp only [hpl, hv, hq, Option.isSome_none, Bool.false_eq_true, if_false, if_true,
    eq_self_iff_true]
  rw [if_pos ⟨ht1, ht2⟩]
  refine ⟨_, rfl, rfl, ?_⟩
  rw [addPrecommitVote_keeps_precommitVoteLock,
    if_neg (by simp [newPrecommitVote, PrecommitVote.sign])]
  exact hpl.symm ▸ rfl

lemma votePrecommit_waits (cc : ConsensusContract) (rm : RoundManager) (cm : CMState)
    (now : Int) (qh : Nat) (hpl : rm.precommitVoteLock = none)
    (hv : rm.lockset.isValid = true) (hq : rm.lockset.hasQuorum = (false, qh))
    (ht : ¬ (rm.timeoutTime ≠ 0 ∧ (now : ℚ) ≥ rm.timeoutTime)) :
    rm.votePrecommit cc cm now = (none, rm, cm) := by
  unfold RoundManager.votePrecommit
  simp only [hpl, hv, hq, Option.isSome_none, Bool.false_eq_true, if_false, if_true,
    eq_self_iff_true]
  rw [if_neg ht]

/-- Claim C4: with `precommitVoteLock` unset and a valid prevote lockset,
`votePrecommit` sets the lock exactly when the emitted precommit has type
Block (prevote quorum on a non-nil hash); the Nil precommit emitted once the
prevote timeout has elapsed leaves the lock unset. -/
theorem votePrecommit_lock_iff_block (cc : ConsensusContract) (rm : RoundManager)
    (cm : CMState) (now : Int)
    (hpl : rm.precommitVoteLock = none) (hv : rm.lockset.isValid = true) :
    ((rm.votePrecommit cc cm now).2.1.precommitVoteLock.isSome = true ↔
      ∃ v, (rm.votePrecommit cc cm now).1 = some v ∧ v.voteType = 1) ∧
    ((rm.lockset.hasQuorum).1 = false → rm.timeoutTime ≠ 0 → (now : ℚ) ≥ rm.timeoutTime →
      (∃ v, (rm.votePrecommit cc cm now).1 = some v ∧ v.voteType = 2) ∧
      (rm.votePrecommit cc cm now).2.1.precommitVoteLock = none) := by
  rcases hq : rm.lockset.hasQuorum with ⟨b, qh⟩
  cases b
  · by_cases ht : rm.timeoutTime ≠ 0 ∧ (now : ℚ) ≥ rm.timeoutTime
    · obtain ⟨v, hv1, hv2, hv3⟩ := votePrecommit_on_timeout cc rm cm now qh hpl hv hq ht.1 ht.2
      refine ⟨⟨fun hsome => ?_, fun ⟨w, hw1, hw2⟩ => ?_⟩, fun _ _ _ => ⟨⟨v, hv1, hv2⟩, ?_⟩⟩
      · rw [hv3, hpl] at hsome
        exact absurd hsome (by simp)
      · rw [hv1] at hw1
        obtain rfl : v = w := Option.some.inj hw1
        rw [hv2] at hw2
        exact absurd hw2 (by decide)
      · rw [hv3, hpl]
    · have heq := votePrecommit_waits cc rm cm now qh hpl hv hq ht
      refine ⟨⟨fun hsome => ?_, fun ⟨w, hw1, hw2⟩ => ?_⟩, fun _ ht1 ht2 => absurd ⟨ht1, ht2⟩ ht⟩
      · rw [heq] at hsome
        simp [hpl] at hsome
      · rw [heq] at hw1
        exact absurd hw1 (by simp)
  · obtain ⟨v, hv1, hv2, hv3⟩ := votePrecommit_on_quorum cc rm cm now qh hpl hv hq
    refine ⟨⟨fun _ => ⟨v, hv1, hv2⟩, fun _ => ?_⟩, fun hfalse => ?_⟩
    · rw [hv3]
      rfl
    · exact absurd hfalse (by simp)

theorem votePrecommit_lock_iff_block_witness :
    (∃ v, (rmC4.votePrecommit ccEx cmEx 10).1 = some v ∧ v.voteType = 2) ∧
    (rmC4.votePrecommit ccEx cmEx 10).2.1.precommitVoteLock = none :=
  (votePrecommit_lock_iff_block ccEx rmC4 cmEx 10 (by decide) (by decide)).2
    (by decide) (by decide) (by norm_num [rmC4])

/-! ## Claim C3 -/

/-- Claim C3: `vote()` is claimed to complete without failure on a recorded
`VotingInstruction` even when no precommit vote lock exists at the height.
In exactly that state, when the instruction's lockset has quorum, the source
evaluates `lastPrecommitVoteLock.Round` on a nil pointer and panics
(modelled by `Except.error`). -/
theorem vote_votingInstruction_nil_deref :
    RoundManager.vote ccEx hmC3 rmC3 100 = .error () := rfl

/-! ## Map lemmas -/

lemma mlookup_minsert {α : Type} (m : List (Nat × α)) (k j : Nat) (v : α) :
    mlookup (minsert m k v) j = if j = k then some v else mlookup m j := by
  induction m with
  | nil =>
    by_cases h : j = k
    · subst h
      simp [minsert, mlookup]
    · have hkj : ¬ k = j := fun hh => h hh.symm
      simp [minsert, mlookup, h, hkj]
  | cons e rest ih =>
    by_cases hek : e.1 = k
    · by_cases hjk : j = k
      · subst hjk
        simp [minsert, mlookup, hek]
      · have hkj : ¬ k = j := fun hh => hjk hh.symm
        have hej : ¬ e.1 = j := by rw [hek]; exact hkj
        simp [minsert, mlookup, hek, hjk, hkj, hej]
    · by_cases hje : e.1 = j
      · have hjk : ¬ j = k := by
          intro hh
          exact hek (by rw [hje, hh])
        simp [minsert, mlookup, hek, hje, hjk]
      · simp [minsert, mlookup, hek, hje, ih]

lemma getRoundManager_voteLock_fst (cc : ConsensusContract) (hm : HeightManager) (r : Nat) :
    (hm.getRoundManager cc r).1.voteLock = roundVoteLock hm r := by
  unfold HeightManager.getRoundManager roundVoteLock
  rcases h : mlookup hm.rounds r with _ | rm <;> simp [h, newRoundManager]

lemma getRoundManager_precommitVoteLock_fst (cc : ConsensusContract) (hm : HeightManager)
    (r : Nat) :
    (hm.getRoundManager cc r).1.precommitVoteLock = roundPrecommitVoteLock hm r := by
  unfold HeightManager.getRoundManager roundPrecommitVoteLock
  rcases h : mlookup hm.rounds r with _ | rm <;> simp [h, newRoundManager]

lemma roundVoteLock_getRoundManager (cc : ConsensusContract) (hm : HeightManager) (r j : Nat) :
    roundVoteLock (hm.getRoundManager cc r).2 j = roundVoteLock hm j := by
  unfold HeightManager.getRoundManager
  rcases h : mlookup hm.rounds r with _ | rm
  · by_cases hj : j = r
    · subst hj
      simp [roundVoteLock, mlookup_minsert, h, newRoundManager]
    · simp [roundVoteLock, mlookup_minsert, hj]
  · rfl

lemma roundPrecommitVoteLock_getRoundManager (cc : ConsensusContract) (hm : HeightManager)
    (r j : Nat) :
    roundPrecommitVoteLock (hm.getRoundManager cc r).2 j = roundPrecommitVoteLock hm j := by
  unfold HeightManager.getRoundManager
  rcases h : mlookup hm.rounds r with _ | rm
  · by_cases hj : j = r
    · subst hj
      simp [roundPrecommitVoteLock, mlookup_minsert, h, newRoundManager]
    · simp [roundPrecommitVoteLock, mlookup_minsert, hj]
  · rfl

/-! ## Claim C9 -/

lemma lastPrecommitVoteLockAux_succ (cc : ConsensusContract) (n : Nat) (hm : HeightManager) :
    lastPrecommitVoteLockAux cc (n + 1) hm =
      if (hm.getRoundManager cc n).1.voteLock.isSome = true
      then ((hm.getRoundManager cc n).1.precommitVoteLock, (hm.getRoundManager cc n).2)
      else lastPrecommitVoteLockAux cc n (hm.getRoundManager cc n).2 := rfl

lemma lastPrecommitVoteLockAux_spec (cc : ConsensusContract) (n : Nat) (hm : HeightManager) :
    ((∀ j, j < n → roundVoteLock hm j = none) ∧
      (lastPrecommitVoteLockAux cc n hm).1 = none) ∨
    (∃ i, i < n ∧ roundVoteLock hm i ≠ none ∧
      (∀ j, i < j → j < n → roundVoteLock hm j = none) ∧
      (lastPrecommitVoteLockAux cc n hm).1 = roundPrecommitVoteLock hm i) := by
  induction n generalizing hm with
  | zero => exact Or.inl ⟨fun j hj => absurd hj (Nat.not_lt_zero j), rfl⟩
  | succ n ih =>
    have hstep := lastPrecommitVoteLockAux_succ cc n hm
    by_cases hv : roundVoteLock hm n = none
    · have h1 : (hm.getRoundManager cc n).1.voteLock = none := by
        rw [getRoundManager_voteLock_fst]; exact hv
      rw [h1] at hstep
      simp only [Option.isSome_none, Bool.false_eq_true, if_false] at hstep
      rcases ih (hm.getRoundManager cc n).2 with ⟨hall, hres⟩ | ⟨i, hi, hvl, habove, hres⟩
      · refine Or.inl ⟨fun j hj => ?_, by rw [hstep]; exact hres⟩
        rcases Nat.lt_succ_iff_lt_or_eq.mp hj with hj2 | rfl
        · rw [← roundVoteLock_getRoundManager cc hm n j]
          exact hall j hj2
        · exact hv
      · refine Or.inr ⟨i, Nat.lt_succ_of_lt hi, ?_, fun j hij hj => ?_, ?_⟩
        · rw [← roundVoteLock_getRoundManager cc hm n i]
          exact hvl
        · rcases Nat.lt_succ_iff_lt_or_eq.mp hj with hj2 | rfl
          · rw [← roundVoteLock_getRoundManager cc hm n j]
            exact habove j hij hj2
          · exact hv
        · rw [hstep, hres, roundPrecommitVoteLock_getRoundManager]
    · have h1 : (hm.getRoundManager cc n).1.voteLock.isSome = true := by
        rw [getRoundManager_voteLock_fst]
        exact Option.isSome_iff_ne_none.mpr hv
      rw [h1] at hstep
      simp only [if_true, eq_self_iff_true] at hstep
      refine Or.inr ⟨n, Nat.lt_succ_self n, hv, fun j hij hj => absurd hj (by omega), ?_⟩
      rw [hstep]
      simp [getRoundManager_precommitVoteLock_fst]

/-- Claim C9 counterexample: a height where round 0 carries a set
`precommitVoteLock` while round 1 has only a prevote lock. The claim says
`LastPrecommitVoteLock` returns the precommit lock of the highest round that
has one (round 0's, here) and nil only when no round has one; the source
instead keys the scan on `voteLock` and returns round 1's nil
`precommitVoteLock`. -/
theorem LastPrecommitVoteLock_ignores_lower_lock :
    (hmC9.LastPrecommitVoteLock ccEx).1 = none ∧
    roundPrecommitVoteLock hmC9 0 = some ⟨1, 0, 7, 1, 1⟩ := by
  refine ⟨by rfl, by rfl⟩

/-- Claim C9 (amended): `LastPrecommitVoteLock` scans indices
`len(rounds)-1 .. 0` and returns the `precommitVoteLock` of the highest
index whose `voteLock` (prevote lock) is set — a value that may be `none`
even when a lower round holds a precommit lock — and returns `none` when no
scanned index has a vote lock. -/
theorem LastPrecommitVoteLock_keyed_on_voteLock (cc : ConsensusContract) (hm : HeightManager) :
    ((∀ j, j < msize hm.rounds → roundVoteLock hm j = none) ∧
      (hm.LastPrecommitVoteLock cc).1 = none) ∨
    (∃ i, i < msize hm.rounds ∧ roundVoteLock hm i ≠ none ∧
      (∀ j, i < j → j < msize hm.rounds → roundVoteLock hm j = none) ∧
      (hm.LastPrecommitVoteLock cc).1 = roundPrecommitVoteLock hm i) :=
  lastPrecommitVoteLockAux_spec cc (msize hm.rounds) hm

/-! ## Claim C10 -/

lemma msize_minsert_present {α : Type} (m : List (Nat × α)) (k : Nat) (v w : α)
    (h : mlookup m k = some w) : msize (minsert m k v) = msize m := by
  induction m with
  | nil => simp [mlookup] at h
  | cons e rest ih =>
    by_cases hek : e.1 = k
    · simp [minsert, hek, msize]
    · rw [mlookup, if_neg hek] at h
      simp [minsert, hek, msize] at ih ⊢
      exact ih h

lemma getRoundManager_height (cc : ConsensusContract) (hm : HeightManager) (r : Nat) :
    (hm.getRoundManager cc r).2.height = hm.height := by
  unfold HeightManager.getRoundManager
  rcases h : mlookup hm.rounds r with _ | rm <;> simp [h]

lemma getRoundManager_lockset_fst (cc : ConsensusContract) (hm : HeightManager) (r : Nat) :
    (hm.getRoundManager cc r).1.lockset = roundLockset cc hm r := by
  unfold HeightManager.getRoundManager roundLockset
  rcases h : mlookup hm.rounds r with _ | rm <;> simp [h]

lemma getRoundManager_precommitLockset_fst (cc : ConsensusContract) (hm : HeightManager)
    (r : Nat) :
    (hm.getRoundManager cc r).1.precommitLockset = roundPrecommitLockset cc hm r := by
  unfold HeightManager.getRoundManager roundPrecommitLockset
  rcases h : mlookup hm.rounds r with _ | rm <;> simp [h]

lemma roundLockset_getRoundManager (cc : ConsensusContract) (hm : HeightManager) (r j : Nat) :
    roundLockset cc (hm.getRoundManager cc r).2 j = roundLockset cc hm j := by
  unfold HeightManager.getRoundManager
  rcases h : mlookup hm.rounds r with _ | rm
  · by_cases hj : j = r
    · subst hj
      simp [roundLockset, mlookup_minsert, h]
    · simp [roundLockset, mlookup_minsert, hj]
  · rfl

lemma roundPrecommitLockset_getRoundManager (cc : ConsensusContract) (hm : HeightManager)
    (r j : Nat) :
    roundPrecommitLockset cc (hm.getRoundManager cc r).2 j = roundPrecommitLockset cc hm j := by
  unfold HeightManager.getRoundManager
  rcases h : mlookup hm.rounds r with _ | rm
  · by_cases hj : j = r
    · subst hj
      simp [roundPrecommitLockset, mlookup_minsert, h]
    · simp [roundPrecommitLockset, mlookup_minsert, hj]
  · rfl

lemma lastVoteLockAux_succ (cc : ConsensusContract) (n : Nat) (hm : HeightManager) :
    lastVoteLockAux cc (n + 1) hm =
      if (hm.getRoundManager cc n).1.voteLock.isSome = true
      then ((hm.getRoundManager cc n).1.voteLock, (hm.getRoundManager cc n).2)
      else lastVoteLockAux cc n (hm.getRoundManager cc n).2 := rfl

lemma lastValidLocksetAux_succ (cc : ConsensusContract) (n : Nat) (hm : HeightManager) :
    lastValidLocksetAux cc (n + 1) hm =
      if (hm.getRoundManager cc n).1.lockset.isValid = true
      then (some (hm.getRoundManager cc n).1.lockset, (hm.getRoundManager cc n).2)
      else lastValidLocksetAux cc n (hm.getRoundManager cc n).2 := rfl

lemma lastValidPrecommitLocksetAux_succ (cc : ConsensusContract) (n : Nat)
    (hm : HeightManager) :
    lastValidPrecommitLocksetAux cc (n + 1) hm =
      if (hm.getRoundManager cc n).1.precommitLockset.isValid = true
      then (some (hm.getRoundManager cc n).1.precommitLockset, (hm.getRoundManager cc n).2)
      else lastValidPrecommitLocksetAux cc n (hm.getRoundManager cc n).2 := rfl

lemma lastVoteLockAux_congr (cc : ConsensusContract) (n : Nat) (hm1 hm2 : HeightManager)
    (h : ∀ j, j < n → roundVoteLock hm1 j = roundVoteLock hm2 j) :
    (lastVoteLockAux cc n hm1).1 = (lastVoteLockAux cc n hm2).1 := by
  induction n generalizing hm1 hm2 with
  | zero => rfl
  | succ n ih =>
    have hn := h n (Nat.lt_succ_self n)
    rw [lastVoteLockAux_succ cc n hm1, lastVoteLockAux_succ cc n hm2,
      getRoundManager_voteLock_fst, getRoundManager_voteLock_fst, hn]
    by_cases hv : (roundVoteLock hm2 n).isSome = true
    · rw [if_pos hv, if_pos hv]
    · rw [if_neg hv, if_neg hv]
      exact ih _ _ fun j hj => by
        rw [roundVoteLock_getRoundManager, roundVoteLock_getRoundManager]
        exact h j (Nat.lt_succ_of_lt hj)

lemma lastPrecommitVoteLockAux_congr (cc : ConsensusContract) (n : Nat)
    (hm1 hm2 : HeightManager)
    (h : ∀ j, j < n → roundVoteLock hm1 j = roundVoteLock hm2 j)
    (hp : ∀ j, j < n → roundPrecommitVoteLock hm1 j = roundPrecommitVoteLock hm2 j) :
    (lastPrecommitVoteLockAux cc n hm1).1 = (lastPrecommitVoteLockAux cc n hm2).1 := by
  induction n generalizing hm1 hm2 with
  | zero => rfl
  | succ n ih =>
    have hn := h n (Nat.lt_succ_self n)
    rw [lastPrecommitVoteLockAux_succ cc n hm1, lastPrecommitVoteLockAux_succ cc n hm2,
      getRoundManager_voteLock_fst, getRoundManager_voteLock_fst, hn]
    by_cases hv : (roundVoteLock hm2 n).isSome = true
    · rw [if_pos hv, if_pos hv]
      simp only [getRoundManager_precommitVoteLock_fst]
      exact hp n (Nat.lt_succ_self n)
    · rw [if_neg hv, if_neg hv]
      refine ih _ _ (fun j hj => ?_) (fun j hj => ?_)
      · rw [roundVoteLock_getRoundManager, roundVoteLock_getRoundManager]
        exact h j (Nat.lt_succ_of_lt hj)
      · rw [roundPrecommitVoteLock_getRoundManager, roundPrecommitVoteLock_getRoundManager]
        exact hp j (Nat.lt_succ_of_lt hj)

lemma lastValidLocksetAux_congr (cc : ConsensusContract) (n : Nat) (hm1 hm2 : HeightManager)
    (h : ∀ j, j < n → roundLockset cc hm1 j = roundLockset cc hm2 j) :
    (lastValidLocksetAux cc n hm1).1 = (lastValidLocksetAux cc n hm2).1 := by
  induction n generalizing hm1 hm2 with
  | zero => rfl
  | succ n ih =>
    have hn := h n (Nat.lt_succ_self n)
    rw [lastValidLocksetAux_succ cc n hm1, lastValidLocksetAux_succ cc n hm2,
      getRoundManager_lockset_fst, getRoundManager_lockset_fst, hn]
    by_cases hv : (roundLockset cc hm2 n).isValid = true
    · rw [if_pos hv, if_pos hv]
    · rw [if_neg hv, if_neg hv]
      exact ih _ _ fun j hj => by
        rw [roundLockset_getRoundManager, roundLockset_getRoundManager]
        exact h j (Nat.lt_succ_of_lt hj)

lemma lastValidPrecommitLocksetAux_congr (cc : ConsensusContract) (n : Nat)
    (hm1 hm2 : HeightManager)
    (h : ∀ j, j < n → roundPrecommitLockset cc hm1 j = roundPrecommitLockset cc hm2 j) :
    (lastValidPrecommitLocksetAux cc n hm1).1 = (lastValidPrecommitLocksetAux cc n hm2).1 := by
  induction n generalizing hm1 hm2 with
  | zero => rfl
  | succ n ih =>
    have hn := h n (Nat.lt_succ_self n)
    rw [lastValidPrecommitLocksetAux_succ cc n hm1, lastValidPrecommitLocksetAux_succ cc n hm2,
      getRoundManager_precommitLockset_fst, getRoundManager_precommitLockset_fst, hn]
    by_cases hv : (roundPrecommitLockset cc hm2 n).isValid = true
    · rw [if_pos hv, if_pos hv]
    · rw [if_neg hv, if_neg hv]
      exact ih _ _ fun j hj => by
        rw [roundPrecommitLockset_getRoundManager, roundPrecommitLockset_getRoundManager]
        exact h j (Nat.lt_succ_of_lt hj)

/-- Claim C10: the bounded accessors never inspect an entry keyed at or
beyond `len(rounds)`: replacing the round manager stored at such a key `k`
changes none of the four results (they scan only indices
`0 .. len(rounds)-1`). At the concrete non-contiguous map with only round 5
populated, all four return nil although round 5 holds data of every kind,
and the read mutates the map by inserting the empty round manager scanned
at index 0. -/
theorem accessors_skip_non_contiguous_round (cc : ConsensusContract) (hm : HeightManager)
    (k : Nat) (rmk rm2 : RoundManager)
    (hk : msize hm.rounds ≤ k) (hke : mlookup hm.rounds k = some rmk) :
    (((({ hm with rounds := minsert hm.rounds k rm2 } : HeightManager).LastVoteLock cc).1 =
        (hm.LastVoteLock cc).1) ∧
      ((({ hm with rounds := minsert hm.rounds k rm2 } : HeightManager).LastPrecommitVoteLock
          cc).1 = (hm.LastPrecommitVoteLock cc).1) ∧
      ((({ hm with rounds := minsert hm.rounds k rm2 } : HeightManager).lastValidLockset cc).1 =
        (hm.lastValidLockset cc).1) ∧
      ((({ hm with rounds := minsert hm.rounds k rm2 } : HeightManager).lastValidPrecommitLockset
          cc).1 = (hm.lastValidPrecommitLockset cc).1)) ∧
    ((hmC10.LastVoteLock ccEx).1 = none ∧
      (hmC10.LastPrecommitVoteLock ccEx).1 = none ∧
      (hmC10.lastValidLockset ccEx).1 = none ∧
      (hmC10.lastValidPrecommitLockset ccEx).1 = none ∧
      ((hmC10.LastVoteLock ccEx).2).rounds = [(5, rmC10), (0, newRoundManager ccEx 5 0)] ∧
      rmC10.voteLock ≠ none ∧ rmC10.precommitVoteLock ≠ none ∧
      rmC10.lockset.isValid = true ∧ rmC10.precommitLockset.isValid = true) := by
  have hsz : msize (minsert hm.rounds k rm2) = msize hm.rounds :=
    msize_minsert_present hm.rounds k rm2 rmk hke
  have hne : ∀ j, j < msize hm.rounds → ¬ j = k := fun j hj hjk => by omega
  have hvl : ∀ j, j < msize hm.rounds →
      roundVoteLock { hm with rounds := minsert hm.rounds k rm2 } j = roundVoteLock hm j := by
    intro j hj
    simp [roundVoteLock, mlookup_minsert, hne j hj]
  have hpvl : ∀ j, j < msize hm.rounds →
      roundPrecommitVoteLock { hm with rounds := minsert hm.rounds k rm2 } j =
        roundPrecommitVoteLock hm j := by
    intro j hj
    simp [roundPrecommitVoteLock, mlookup_minsert, hne j hj]
  have hls : ∀ j, j < msize hm.rounds →
      roundLockset cc { hm with rounds := minsert hm.rounds k rm2 } j =
        roundLockset cc hm j := by
    intro j hj
    simp [roundLockset, mlookup_minsert, hne j hj]
  have hpls : ∀ j, j < msize hm.rounds →
      roundPrecommitLockset cc { hm with rounds := minsert hm.rounds k rm2 } j =
        roundPrecommitLockset cc hm j := by
    intro j hj
    simp [roundPrecommitLockset, mlookup_minsert, hne j hj]
  refine ⟨⟨?_, ?_, ?_, ?_⟩, by rfl, by rfl, by rfl, by rfl, by rfl, by decide, by decide,
    by decide, by decide⟩
  · unfold HeightManager.LastVoteLock
    rw [show msize ({ hm with rounds := minsert hm.rounds k rm2 } : HeightManager).rounds
        = msize hm.rounds from hsz]
    exact lastVoteLockAux_congr cc _ _ _ hvl
  · unfold HeightManager.LastPrecommitVoteLock
    rw [show msize ({ hm with rounds := minsert hm.rounds k rm2 } : HeightManager).rounds
        = msize hm.rounds from hsz]
    exact lastPrecommitVoteLockAux_congr cc _ _ _ hvl hpvl
  · unfold HeightManager.lastValidLockset
    rw [show msize ({ hm with rounds := minsert hm.rounds k rm2 } : HeightManager).rounds
        = msize hm.rounds from hsz]
    exact lastValidLocksetAux_congr cc _ _ _ hls
  · unfold HeightManager.lastValidPrecommitLockset
    rw [show msize ({ hm with rounds := minsert hm.rounds k rm2 } : HeightManager).rounds
        = msize hm.rounds from hsz]
    exact lastValidPrecommitLocksetAux_congr cc _ _ _ hpls

theorem accessors_skip_non_contiguous_round_witness :
    (((({ hmC10 with rounds := minsert hmC10.rounds 5 (newRoundManager ccEx 5 5) }
          : HeightManager).LastVoteLock ccEx).1 = (hmC10.LastVoteLock ccEx).1) ∧
      ((({ hmC10 with rounds := minsert hmC10.rounds 5 (newRoundManager ccEx 5 5) }
          : HeightManager).LastPrecommitVoteLock ccEx).1 =
        (hmC10.LastPrecommitVoteLock ccEx).1) ∧
      ((({ hmC10 with rounds := minsert hmC10.rounds 5 (newRoundManager ccEx 5 5) }
          : HeightManager).lastValidLockset ccEx).1 = (hmC10.lastValidLockset ccEx).1) ∧
      ((({ hmC10 with rounds := minsert hmC10.rounds 5 (newRoundManager ccEx 5 5) }
          : HeightManager).lastValidPrecommitLockset ccEx).1 =
        (hmC10.lastValidPrecommitLockset ccEx).1)) :=
  (accessors_skip_non_contiguous_round ccEx hmC10 5 rmC10 (newRoundManager ccEx 5 5)
    (by decide) (by rfl)).1

theorem LastPrecommitVoteLock_keyed_on_voteLock_witness :
    ((∀ j, j < msize hmC9.rounds → roundVoteLock hmC9 j = none) ∧
      (hmC9.LastPrecommitVoteLock ccEx).1 = none) ∨
    (∃ i, i < msize hmC9.rounds ∧ roundVoteLock hmC9 i ≠ none ∧
      (∀ j, i < j → j < msize hmC9.rounds → roundVoteLock hmC9 j = none) ∧
      (hmC9.LastPrecommitVoteLock ccEx).1 = roundPrecommitVoteLock hmC9 i) :=
  LastPrecommitVoteLock_keyed_on_voteLock ccEx hmC9

/-! ## Claim C5 -/

lemma sub64_eq_one_iff (a b : Nat) (ha : a < U64) (hb : b < U64) (h0 : a ≠ 0) :
    sub64 a b = 1 ↔ b = a - 1 := by
  have h64 : U64 = 18446744073709551616 := by norm_num [U64]
  unfold sub64
  rw [h64] at ha hb ⊢
  omega

lemma sub64_one (a : Nat) (ha : a < U64) (h0 : a ≠ 0) : sub64 a 1 = a - 1 := by
  have h64 : U64 = 18446744073709551616 := by norm_num [U64]
  unfold sub64
  rw [h64] at ha ⊢
  omega

lemma AddProposal_true_blockProposal (cc : ConsensusContract) (cm : CMState)
    (bp : BlockProposal) (peer : Option Nat)
    (h : (cm.AddProposal cc (.blockProposal bp) peer).1 = true) (hr : bp.round ≠ 0) :
    (Proposal.blockProposal bp).lockSet.noQuorum = true ∧
    sub64 bp.round (Proposal.blockProposal bp).lockSet.round = 1 ∧
    (bp.signingLockset.hasQuorum).1 = true := by
  simp only [CMState.AddProposal, Proposal.getRound, Proposal.getHeight, Proposal.sender] at h
  split at h
  · simp at h
  · split at h
    · simp at h
    · split at h
      · simp at h
      · split at h
        · simp at h
        · split at h
          · simp at h
          · split at h
            · simp at h
            · split at h
              · simp at h
              · split at h
                · simp at h
                · rename_i h1 h2 h3 h4 h5 h6 h7 h8
                  refine ⟨?_, ?_, ?_⟩
                  · by_cases hq : (Proposal.blockProposal bp).lockSet.noQuorum = true
                    · exact hq
                    · exact absurd ⟨hr, fun hh => hq hh⟩ h7
                  · by_cases hs : sub64 bp.round (Proposal.blockProposal bp).lockSet.round = 1
                    · exact hs
                    · exact absurd ⟨hr, hs⟩ h5
                  · by_cases hsq : (bp.signingLockset.hasQuorum).1 = true
                    · exact hsq
                    · exact absurd (fun hh => hsq hh) h8

lemma AddProposal_true_votingInstruction (cc : ConsensusContract) (cm : CMState)
    (vi : VotingInstruction) (peer : Option Nat)
    (h : (cm.AddProposal cc (.votingInstruction vi) peer).1 = true) :
    (vi.roundLockset.hasQuorum).1 = true ∧ vi.roundLockset.round = sub64 vi.round 1 ∧
    vi.round ≠ 0 := by
  simp only [CMState.AddProposal, Proposal.getRound, Proposal.getHeight, Proposal.sender] at h
  split at h
  · simp at h
  · split at h
    · simp at h
    · split at h
      · simp at h
      · split at h
        · simp at h
        · split at h
          · simp at h
          · split at h
            · simp at h
            · split at h
              · simp at h
              · split at h
                · simp at h
                · rename_i h1 h2 h3 h4 h5 h6 h7 h8
                  exact ⟨by simpa using h8, (not_not.mp h6).1, h7⟩

/-- Claim C5: the receiver-side shape checks of `AddProposal`. A
`BlockProposal` at round `r > 0` is rejected when its round lockset does not
exhibit NoQuorum, or its round lockset's round is not `r - 1`, or its
signing lockset lacks quorum; a `VotingInstruction` is rejected when its
lockset lacks quorum, or its lockset's round is not `r - 1`, or `r = 0`; and
any proposal the call accepts (returns true for) satisfies the corresponding
shape. -/
theorem AddProposal_shape_checks (cc : ConsensusContract) (cm : CMState)
    (bp : BlockProposal) (vi : VotingInstruction) (peer : Option Nat)
    (hbr : bp.round < U64) (hblr : (Proposal.blockProposal bp).lockSet.round < U64)
    (hvr : vi.round < U64) :
    (bp.round ≠ 0 → (Proposal.blockProposal bp).lockSet.noQuorum = false →
      (cm.AddProposal cc (.blockProposal bp) peer).1 = false) ∧
    (bp.round ≠ 0 → (Proposal.blockProposal bp).lockSet.round ≠ bp.round - 1 →
      (cm.AddProposal cc (.blockProposal bp) peer).1 = false) ∧
    (bp.round ≠ 0 → (bp.signingLockset.hasQuorum).1 = false →
      (cm.AddProposal cc (.blockProposal bp) peer).1 = false) ∧
    ((vi.roundLockset.hasQuorum).1 = false →
      (cm.AddProposal cc (.votingInstruction vi) peer).1 = false) ∧
    (vi.roundLockset.round ≠ vi.round - 1 →
      (cm.AddProposal cc (.votingInstruction vi) peer).1 = false) ∧
    (vi.round = 0 → (cm.AddProposal cc (.votingInstruction vi) peer).1 = false) ∧
    ((cm.AddProposal cc (.blockProposal bp) peer).1 = true → bp.round ≠ 0 →
      (Proposal.blockProposal bp).lockSet.noQuorum = true ∧
      (Proposal.blockProposal bp).lockSet.round = bp.round - 1 ∧
      (bp.signingLockset.hasQuorum).1 = true) ∧
    ((cm.AddProposal cc (.votingInstruction vi) peer).1 = true →
      (vi.roundLockset.hasQuorum).1 = true ∧ vi.roundLockset.round = vi.round - 1 ∧
      vi.round ≠ 0) := by
  have hshapeBP : (cm.AddProposal cc (.blockProposal bp) peer).1 = true → bp.round ≠ 0 →
      (Proposal.blockProposal bp).lockSet.noQuorum = true ∧
      (Proposal.blockProposal bp).lockSet.round = bp.round - 1 ∧
      (bp.signingLockset.hasQuorum).1 = true := by
    intro h hr
    obtain ⟨hnq, hsub, hsq⟩ := AddProposal_true_blockProposal cc cm bp peer h hr
    exact ⟨hnq, (sub64_eq_one_iff bp.round _ hbr hblr hr).mp hsub, hsq⟩
  have hshapeVI : (cm.AddProposal cc (.votingInstruction vi) peer).1 = true →
      (vi.roundLockset.hasQuorum).1 = true ∧ vi.roundLockset.round = vi.round - 1 ∧
      vi.round ≠ 0 := by
    intro h
    obtain ⟨hq, hround, h0⟩ := AddProposal_true_votingInstruction cc cm vi peer h
    exact ⟨hq, by rw [hround, sub64_one vi.round hvr h0], h0⟩
  refine ⟨?_, ?_, ?_, ?_, ?_, ?_, hshapeBP, hshapeVI⟩
  · intro hr hnq
    cases hres : (cm.AddProposal cc (.blockProposal bp) peer).1
    · rfl
    · obtain ⟨hnq2, _, _⟩ := hshapeBP hres hr
      rw [hnq] at hnq2
      exact absurd hnq2 (by simp)
  · intro hr hrr
    cases hres : (cm.AddProposal cc (.blockProposal bp) peer).1
    · rfl
    · exact absurd (hshapeBP hres hr).2.1 hrr
  · intro hr hsq
    cases hres : (cm.AddProposal cc (.blockProposal bp) peer).1
    · rfl
    · have h2 := (hshapeBP hres hr).2.2
      rw [hsq] at h2
      exact absurd h2 (by simp)
  · intro hq
    cases hres : (cm.AddProposal cc (.votingInstruction vi) peer).1
    · rfl
    · have h2 := (hshapeVI hres).1
      rw [hq] at h2
      exact absurd h2 (by simp)
  · intro hrr
    cases hres : (cm.AddProposal cc (.votingInstruction vi) peer).1
    · rfl
    · exact absurd (hshapeVI hres).2.1 hrr
  · intro h0
    cases hres : (cm.AddProposal cc (.votingInstruction vi) peer).1
    · rfl
    · exact absurd h0 (hshapeVI hres).2.2

theorem AddProposal_shape_checks_witness :
    (cmEx.AddProposal ccEx (.votingInstruction ⟨1, 0, lsC3, 2⟩) none).1 = false :=
  (AddProposal_shape_checks ccEx cmEx ⟨1, 0, 1, 7, 3, ⟨4, []⟩, none, 1⟩ ⟨1, 0, lsC3, 2⟩ none
    (by decide) (by decide) (by decide)).2.2.2.2.2.1 rfl

/-! ## Claim C1 -/

lemma mlookup_isSome_iff_mem {α : Type} (m : List (Nat × α)) (j : Nat) :
    (mlookup m j).isSome = true ↔ j ∈ mkeys m := by
  induction m with
  | nil => simp [mlookup, mkeys]
  | cons e rest ih =>
    by_cases he : e.1 = j
    · simp [mlookup, mkeys, he]
    · simp only [mlookup, if_neg he, mkeys, List.map_cons, List.mem_cons]
      rw [ih]
      simp [mkeys]
      intro hj
      exact absurd hj.symm he

lemma mem_mkeys_of_mlookup {α : Type} (m : List (Nat × α)) (j : Nat) (v : α)
    (h : mlookup m j = some v) : j ∈ mkeys m :=
  (mlookup_isSome_iff_mem m j).mp (by rw [h]; rfl)

lemma mkeys_minsert_absent {α : Type} (m : List (Nat × α)) (k : Nat) (v : α)
    (h : mlookup m k = none) : mkeys (minsert m k v) = mkeys m ++ [k] := by
  induction m with
  | nil => rfl
  | cons e rest ih =>
    by_cases he : e.1 = k
    · rw [mlookup, if_pos he] at h
      cases h
    · rw [mlookup, if_neg he] at h
      simp [minsert, mkeys, if_neg he] at ih ⊢
      exact ih h

lemma msize_minsert_absent {α : Type} (m : List (Nat × α)) (k : Nat) (v : α)
    (h : mlookup m k = none) : msize (minsert m k v) = msize m + 1 := by
  have h2 := mkeys_minsert_absent m k v h
  have h3 : (mkeys (minsert m k v)).length = (mkeys m ++ [k]).length := by rw [h2]
  simpa [mkeys, msize] using h3

lemma nodup_mkeys_minsert_absent {α : Type} (m : List (Nat × α)) (k : Nat) (v : α)
    (h : mlookup m k = none) (hnd : (mkeys m).Nodup) :
    (mkeys (minsert m k v)).Nodup := by
  rw [mkeys_minsert_absent m k v h]
  have hk : k ∉ mkeys m := by
    intro hmem
    rw [← mlookup_isSome_iff_mem] at hmem
    rw [h] at hmem
    cases hmem
  simp [List.nodup_append, hnd, hk]

lemma mem_le_foldr_max (l : List Nat) (x : Nat) (h : x ∈ l) : x ≤ l.foldr max 0 := by
  induction l with
  | nil => cases h
  | cons a t ih =>
    rcases List.mem_cons.mp h with rfl | h2
    · exact le_max_left _ _
    · exact le_trans (ih h2) (le_max_right _ _)

lemma length_le_of_nodup_lt (l : List Nat) (B : Nat) (hnd : l.Nodup)
    (hb : ∀ x ∈ l, x < B) : l.length ≤ B := by
  classical
  have h1 : l.toFinset ⊆ Finset.range B := fun x hx =>
    Finset.mem_range.mpr (hb x (List.mem_toFinset.mp hx))
  have h2 := Finset.card_le_card h1
  rw [List.toFinset_card_of_nodup hnd] at h2
  simpa using h2

lemma msize_eq_mkeys_length {α : Type} (m : List (Nat × α)) :
    msize m = (mkeys m).length := by
  simp [msize, mkeys]

lemma mlookup_none_of_ge {α : Type} (m : List (Nat × α)) (i : Nat)
    (hnd : (mkeys m).Nodup) (hlc : ∀ j, j < i → (mlookup m j).isSome = true)
    (hsz : msize m ≤ i) : ∀ j, i ≤ j → mlookup m j = none := by
  classical
  intro j hj
  by_contra hcon
  have hjmem : j ∈ mkeys m := by
    rw [← mlookup_isSome_iff_mem]
    exact Option.isSome_iff_ne_none.mpr hcon
  have hsub : insert j (Finset.range i) ⊆ (mkeys m).toFinset := by
    intro x hx
    rcases Finset.mem_insert.mp hx with rfl | hx2
    · exact List.mem_toFinset.mpr hjmem
    · exact List.mem_toFinset.mpr
        ((mlookup_isSome_iff_mem m x).mp (hlc x (Finset.mem_range.mp hx2)))
  have hcard := Finset.card_le_card hsub
  rw [Finset.card_insert_of_not_mem (by simp; omega),
    List.toFinset_card_of_nodup hnd, Finset.card_range] at hcard
  rw [msize_eq_mkeys_length] at hsz
  omega

lemma getRoundManager_present (cc : ConsensusContract) (hm : HeightManager) (r : Nat)
    (rm : RoundManager) (h : mlookup hm.rounds r = some rm) :
    hm.getRoundManager cc r = (rm, hm) := by
  unfold HeightManager.getRoundManager
  rw [h]

lemma getRoundManager_absent (cc : ConsensusContract) (hm : HeightManager) (r : Nat)
    (h : mlookup hm.rounds r = none) :
    hm.getRoundManager cc r =
      (newRoundManager cc hm.height r,
        { hm with rounds := minsert hm.rounds r (newRoundManager cc hm.height r) }) := by
  unfold HeightManager.getRoundManager
  rw [h]

lemma newRoundManager_pls_invalid (cc : ConsensusContract) (h r : Nat) :
    (newRoundManager cc h r).precommitLockset.isValid = false := by
  simp [newRoundManager, PrecommitLockSet.isValid]

lemma specScan_congr (cnt : Nat) : ∀ (i : Nat) (m1 m2 : List (Nat × RoundManager))
    (found : Option PrecommitLockSet),
    (∀ j, i ≤ j → mlookup m1 j = mlookup m2 j) →
    specScan cnt i m1 found = specScan cnt i m2 found := by
  induction cnt with
  | zero => intro i m1 m2 found h; rfl
  | succ cnt ih =>
    intro i m1 m2 found h
    unfold specScan
    rw [h i (le_refl i)]
    rcases h2 : mlookup m2 i with _ | rm
    · exact ih (i + 1) m1 m2 found fun j hj => h j (by omega)
    · dsimp only
      by_cases hv : rm.precommitLockset.isValid = true
      · rw [if_pos hv, if_pos hv]
        rcases hq : rm.precommitLockset.hasQuorum with ⟨b, hash⟩
        cases b
        · dsimp only
          exact ih (i + 1) m1 m2 found fun j hj => h j (by omega)
        · dsimp only
          rcases found with _ | f
          · exact ih (i + 1) m1 m2 _ fun j hj => h j (by omega)
          · dsimp only
            by_cases hne : (f.hasQuorum).2 ≠ hash
            · rw [if_pos hne, if_pos hne]
            · rw [if_neg hne, if_neg hne]
              exact ih (i + 1) m1 m2 _ fun j hj => h j (by omega)
      · rw [if_neg hv, if_neg hv]
        exact ih (i + 1) m1 m2 found fun j hj => h j (by omega)

lemma specScan_nothing (cnt : Nat) : ∀ (i : Nat) (m : List (Nat × RoundManager))
    (found : Option PrecommitLockSet),
    (∀ j, i ≤ j → mlookup m j = none) → specScan cnt i m found = .ok found := by
  induction cnt with
  | zero => intro i m found h; rfl
  | succ cnt ih =>
    intro i m found h
    unfold specScan
    rw [h i (le_refl i)]
    exact ih (i + 1) m found fun j hj => h j (by omega)

lemma lqpAux_present_step (cc : ConsensusContract) (fuel i : Nat) (hm : HeightManager)
    (found : Option PrecommitLockSet) (rm : RoundManager)
    (hlt : i < msize hm.rounds) (hmi : mlookup hm.rounds i = some rm) :
    lastQuorumPLSAux cc (fuel + 1) i hm found =
      (if rm.precommitLockset.isValid = true then
        match rm.precommitLockset.hasQuorum with
        | (true, hash) =>
          match found with
          | some f =>
            if (f.hasQuorum).2 ≠ hash then some (.error ())
            else lastQuorumPLSAux cc fuel (i + 1) hm (some rm.precommitLockset)
          | none => lastQuorumPLSAux cc fuel (i + 1) hm (some rm.precommitLockset)
        | (false, _) => lastQuorumPLSAux cc fuel (i + 1) hm found
      else lastQuorumPLSAux cc fuel (i + 1) hm found) := by
  conv_lhs => rw [lastQuorumPLSAux]
  rw [if_pos hlt, getRoundManager_present cc hm i rm hmi]

lemma lqpAux_absent_step (cc : ConsensusContract) (fuel i : Nat) (hm : HeightManager)
    (found : Option PrecommitLockSet)
    (hlt : i < msize hm.rounds) (hmi : mlookup hm.rounds i = none) :
    lastQuorumPLSAux cc (fuel + 1) i hm found =
      lastQuorumPLSAux cc fuel (i + 1)
        { hm with rounds := minsert hm.rounds i (newRoundManager cc hm.height i) } found := by
  conv_lhs => rw [lastQuorumPLSAux]
  rw [if_pos hlt, getRoundManager_absent cc hm i hmi]
  dsimp only
  rw [newRoundManager_pls_invalid]
  simp only [Bool.false_eq_true, if_false]

lemma lqpAux_done_step (cc : ConsensusContract) (fuel i : Nat) (hm : HeightManager)
    (found : Option PrecommitLockSet) (hge : ¬ i < msize hm.rounds) :
    lastQuorumPLSAux cc (fuel + 1) i hm found = some (.ok (found, hm)) := by
  conv_lhs => rw [lastQuorumPLSAux]
  rw [if_neg hge]

lemma specScan_present_step (cnt i : Nat) (m : List (Nat × RoundManager))
    (found : Option PrecommitLockSet) (rm : RoundManager) (hmi : mlookup m i = some rm) :
    specScan (cnt + 1) i m found =
      (if rm.precommitLockset.isValid = true then
        match rm.precommitLockset.hasQuorum with
        | (true, hash) =>
          match found with
          | some f =>
            if (f.hasQuorum).2 ≠ hash then .error ()
            else specScan cnt (i + 1) m (some rm.precommitLockset)
          | none => specScan cnt (i + 1) m (some rm.precommitLockset)
        | (false, _) => specScan cnt (i + 1) m found
      else specScan cnt (i + 1) m found) := by
  conv_lhs => rw [specScan]
  rw [hmi]

lemma specScan_absent_step (cnt i : Nat) (m : List (Nat × RoundManager))
    (found : Option PrecommitLockSet) (hmi : mlookup m i = none) :
    specScan (cnt + 1) i m found = specScan cnt (i + 1) m found := by
  conv_lhs => rw [specScan]
  rw [hmi]

lemma lqpAux_bridge (cc : ConsensusContract) (B : Nat) (fuel : Nat) :
    ∀ (i : Nat) (hm : HeightManager) (found : Option PrecommitLockSet),
    (mkeys hm.rounds).Nodup →
    (∀ x ∈ mkeys hm.rounds, x < B) →
    (∀ j, j < i → (mlookup hm.rounds j).isSome = true) →
    i ≤ B →
    2 * B + 1 ≤ fuel + i + msize hm.rounds →
    (match specScan (B - i) i hm.rounds found with
     | .error _ => lastQuorumPLSAux cc fuel i hm found = some (.error ())
     | .ok f => ∃ hm2, lastQuorumPLSAux cc fuel i hm found = some (.ok (f, hm2))) := by
  induction fuel with
  | zero =>
    intro i hm found hnd hb hlc hiB hfuel
    have hsz : msize hm.rounds ≤ B := by
      rw [msize_eq_mkeys_length]
      exact length_le_of_nodup_lt _ B hnd hb
    omega
  | succ fuel ih =>
    intro i hm found hnd hb hlc hiB hfuel
    have hsz : msize hm.rounds ≤ B := by
      rw [msize_eq_mkeys_length]
      exact length_le_of_nodup_lt _ B hnd hb
    by_cases hlt : i < msize hm.rounds
    · have hiB2 : i < B := by omega
      have hBi : B - i = (B - (i + 1)) + 1 := by omega
      rcases hmi : mlookup hm.rounds i with _ | rm
      · rw [lqpAux_absent_step cc fuel i hm found hlt hmi]
        have hscan : specScan (B - i) i hm.rounds found
            = specScan (B - (i + 1)) (i + 1)
              (minsert hm.rounds i (newRoundManager cc hm.height i)) found := by
          rw [hBi, specScan_absent_step _ _ _ _ hmi]
          exact specScan_congr _ _ _ _ _ fun j hj => by
            rw [mlookup_minsert, if_neg (by omega)]
        rw [hscan]
        exact ih (i + 1)
          { hm with rounds := minsert hm.rounds i (newRoundManager cc hm.height i) } found
          (nodup_mkeys_minsert_absent _ _ _ hmi hnd)
          (fun x hx => by
            rw [mkeys_minsert_absent _ _ _ hmi] at hx
            rcases List.mem_append.mp hx with hx2 | hx2
            · exact hb x hx2
            · simp at hx2
              omega)
          (fun j hj => by
            by_cases hji : j = i
            · subst hji
              rw [mlookup_minsert, if_pos rfl]
              rfl
            · rw [mlookup_minsert, if_neg hji]
              exact hlc j (by omega))
          (by omega)
          (by rw [msize_minsert_absent _ _ _ hmi]; omega)
      · have hlc2 : ∀ j, j < i + 1 → (mlookup hm.rounds j).isSome = true := fun j hj => by
          by_cases hji : j = i
          · subst hji
            rw [hmi]
            rfl
          · exact hlc j (by omega)
        rw [lqpAux_present_step cc fuel i hm found rm hlt hmi, hBi,
          specScan_present_step _ _ _ _ rm hmi]
        by_cases hv : rm.precommitLockset.isValid = true
        · rw [if_pos hv, if_pos hv]
          rcases hq : rm.precommitLockset.hasQuorum with ⟨b, hash⟩
          cases b
          · dsimp only
            exact ih (i + 1) hm found hnd hb hlc2 (by omega) (by omega)
          · dsimp only
            rcases found with _ | f
            · dsimp only
              exact ih (i + 1) hm (some rm.precommitLockset) hnd hb hlc2 (by omega) (by omega)
            · dsimp only
              by_cases hne : (f.hasQuorum).2 ≠ hash
              · rw [if_pos hne, if_pos hne]
              · rw [if_neg hne, if_neg hne]
                exact ih (i + 1) hm (some rm.precommitLockset) hnd hb hlc2 (by omega) (by omega)
        · rw [if_neg hv, if_neg hv]
          exact ih (i + 1) hm found hnd hb hlc2 (by omega) (by omega)
    · rw [lqpAux_done_step cc fuel i hm found hlt,
        specScan_nothing (B - i) i hm.rounds found
          (mlookup_none_of_ge hm.rounds i hnd hlc (by omega))]
      exact ⟨hm, rfl⟩

lemma quorumPLSAt_inv (m : List (Nat × RoundManager)) (j : Nat) (ls : PrecommitLockSet)
    (h : quorumPLSAt m j = some ls) :
    ∃ rm, mlookup m j = some rm ∧ rm.precommitLockset = ls ∧ ls.isValid = true ∧
      (ls.hasQuorum).1 = true := by
  unfold quorumPLSAt at h
  rcases hmi : mlookup m j with _ | rm
  · rw [hmi] at h
    cases h
  · rw [hmi] at h
    dsimp only at h
    by_cases hc : rm.precommitLockset.isValid = true ∧ (rm.precommitLockset.hasQuorum).1 = true
    · rw [if_pos hc] at h
      obtain rfl := Option.some.inj h
      exact ⟨rm, rfl, rfl, hc.1, hc.2⟩
    · rw [if_neg hc] at h
      cases h

lemma quorumPLSAt_none_absent (m : List (Nat × RoundManager)) (j : Nat)
    (hmi : mlookup m j = none) : quorumPLSAt m j = none := by
  unfold quorumPLSAt
  rw [hmi]

lemma quorumPLSAt_none_invalid (m : List (Nat × RoundManager)) (j : Nat) (rm : RoundManager)
    (hmi : mlookup m j = some rm)
    (hc : ¬ (rm.precommitLockset.isValid = true ∧ (rm.precommitLockset.hasQuorum).1 = true)) :
    quorumPLSAt m j = none := by
  unfold quorumPLSAt
  rw [hmi]
  dsimp only
  rw [if_neg hc]

lemma quorumPLSAt_some_of (m : List (Nat × RoundManager)) (j : Nat) (rm : RoundManager)
    (hmi : mlookup m j = some rm)
    (hv : rm.precommitLockset.isValid = true) (hq : (rm.precommitLockset.hasQuorum).1 = true) :
    quorumPLSAt m j = some rm.precommitLockset := by
  unfold quorumPLSAt
  rw [hmi]
  dsimp only
  rw [if_pos ⟨hv, hq⟩]

lemma specScan_two_hashes (cnt : Nat) : ∀ (i : Nat) (m : List (Nat × RoundManager))
    (found : Option PrecommitLockSet),
    ((found = none ∧ ∃ j1 j2 ls1 ls2, i ≤ j1 ∧ j1 < j2 ∧ j2 < i + cnt ∧
        quorumPLSAt m j1 = some ls1 ∧ quorumPLSAt m j2 = some ls2 ∧
        (ls1.hasQuorum).2 ≠ (ls2.hasQuorum).2) ∨
      (∃ f, found = some f ∧ ∃ j ls, i ≤ j ∧ j < i + cnt ∧ quorumPLSAt m j = some ls ∧
        (ls.hasQuorum).2 ≠ (f.hasQuorum).2)) →
    specScan cnt i m found = .error () := by
  induction cnt with
  | zero =>
    intro i m found h
    rcases h with ⟨_, j1, j2, ls1, ls2, hj1, hj12, hj2, _⟩ | ⟨f, _, j, ls, hj1, hj2, _⟩
    · omega
    · omega
  | succ cnt ih =>
    intro i m found h
    have hshift : quorumPLSAt m i = none →
        ((found = none ∧ ∃ j1 j2 ls1 ls2, i + 1 ≤ j1 ∧ j1 < j2 ∧ j2 < (i + 1) + cnt ∧
            quorumPLSAt m j1 = some ls1 ∧ quorumPLSAt m j2 = some ls2 ∧
            (ls1.hasQuorum).2 ≠ (ls2.hasQuorum).2) ∨
          (∃ f, found = some f ∧ ∃ j ls, i + 1 ≤ j ∧ j < (i + 1) + cnt ∧
            quorumPLSAt m j = some ls ∧ (ls.hasQuorum).2 ≠ (f.hasQuorum).2)) := by
      intro hqi
      rcases h with ⟨hf, j1, j2, ls1, ls2, hj1, hj12, hj2, hq1, hq2, hne⟩ |
        ⟨f, hf, j, ls, hj1, hj2, hq, hne⟩
      · left
        refine ⟨hf, j1, j2, ls1, ls2, ?_, hj12, by omega, hq1, hq2, hne⟩
        rcases Nat.lt_or_ge i j1 with h2 | h2
        · omega
        · have hji : j1 = i := by omega
          rw [hji, hqi] at hq1
          cases hq1
      · right
        refine ⟨f, hf, j, ls, ?_, by omega, hq, hne⟩
        rcases Nat.lt_or_ge i j with h2 | h2
        · omega
        · have hji : j = i := by omega
          rw [hji, hqi] at hq
          cases hq
    rcases hmi : mlookup m i with _ | rm
    · rw [specScan_absent_step _ _ _ _ hmi]
      exact ih (i + 1) m found (hshift (quorumPLSAt_none_absent m i hmi))
    · by_cases hv : rm.precommitLockset.isValid = true
      · rcases hq : rm.precommitLockset.hasQuorum with ⟨b, hash⟩
        cases b
        · rw [specScan_present_step _ _ _ _ rm hmi, if_pos hv, hq]
          exact ih (i + 1) m found
            (hshift (quorumPLSAt_none_invalid m i rm hmi (by rw [hq]; simp)))
        · have hqi : quorumPLSAt m i = some rm.precommitLockset :=
            quorumPLSAt_some_of m i rm hmi hv (by rw [hq])
          have hhash : (rm.precommitLockset.hasQuorum).2 = hash := by rw [hq]
          rw [specScan_present_step _ _ _ _ rm hmi, if_pos hv, hq]
          dsimp only
          rcases hfound : found with _ | f
          · -- first quorum lockset becomes the new `found`
            dsimp only
            apply ih (i + 1) m (some rm.precommitLockset)
            right
            refine ⟨rm.precommitLockset, rfl, ?_⟩
            rcases h with ⟨_, j1, j2, ls1, ls2, hj1, hj12, hj2, hq1, hq2, hne⟩ |
              ⟨f, hf, _⟩
            · by_cases hj1i : j1 = i
              · subst hj1i
                rw [hqi] at hq1
                obtain rfl := Option.some.inj hq1
                exact ⟨j2, ls2, by omega, by omega, hq2, fun hh => hne (by rw [hh])⟩
              · by_cases hfirst : (ls1.hasQuorum).2 = (rm.precommitLockset.hasQuorum).2
                · exact ⟨j2, ls2, by omega, by omega, hq2, fun hh => hne (by rw [hfirst, hh])⟩
                · exact ⟨j1, ls1, by omega, by omega, hq1, hfirst⟩
            · rw [hfound] at hf
              cases hf
          · dsimp only
            by_cases hne2 : (f.hasQuorum).2 ≠ hash
            · rw [if_pos hne2]
            · rw [if_neg hne2]
              have hfh : (f.hasQuorum).2 = hash := not_not.mp hne2
              apply ih (i + 1) m (some rm.precommitLockset)
              right
              refine ⟨rm.precommitLockset, rfl, ?_⟩
              rcases h with ⟨hf0, _⟩ | ⟨f2, hf2, j, ls, hj1, hj2, hqj, hnej⟩
              · rw [hfound] at hf0
                cases hf0
              · rw [hfound] at hf2
                obtain rfl := Option.some.inj hf2
                by_cases hji : j = i
                · subst hji
                  rw [hqi] at hqj
                  obtain rfl := Option.some.inj hqj
                  exact absurd (by rw [hhash, hfh]) hnej
                · refine ⟨j, ls, by omega, by omega, hqj, ?_⟩
                  rw [hhash, ← hfh]
                  exact hnej
      · rw [specScan_present_step _ _ _ _ rm hmi, if_neg hv]
        exact ih (i + 1) m found
          (hshift (quorumPLSAt_none_invalid m i rm hmi (fun hc => hv hc.1)))

lemma specScan_agree (H : Nat) (cnt : Nat) : ∀ (i : Nat) (m : List (Nat × RoundManager))
    (found : Option PrecommitLockSet),
    (∀ j ls, i ≤ j → j < i + cnt → quorumPLSAt m j = some ls → (ls.hasQuorum).2 = H) →
    (found = none ∨ ∃ f, found = some f ∧ f.isValid = true ∧ (f.hasQuorum).1 = true ∧
      (f.hasQuorum).2 = H) →
    ((¬ ∃ j ls, i ≤ j ∧ j < i + cnt ∧ quorumPLSAt m j = some ls) →
      specScan cnt i m found = .ok found) ∧
    ((∃ j ls, i ≤ j ∧ j < i + cnt ∧ quorumPLSAt m j = some ls) →
      ∃ ls, specScan cnt i m found = .ok (some ls) ∧ ls.isValid = true ∧
        (ls.hasQuorum).1 = true ∧ (ls.hasQuorum).2 = H) := by
  induction cnt with
  | zero =>
    intro i m found hagree hfound
    exact ⟨fun _ => rfl, fun ⟨j, ls, hj1, hj2, _⟩ => absurd hj2 (by omega)⟩
  | succ cnt ih =>
    intro i m found hagree hfound
    have hagree2 : ∀ j ls, i + 1 ≤ j → j < (i + 1) + cnt → quorumPLSAt m j = some ls →
        (ls.hasQuorum).2 = H :=
      fun j ls hj1 hj2 hq => hagree j ls (by omega) (by omega) hq
    have hskip : quorumPLSAt m i = none →
        specScan (cnt + 1) i m found = specScan cnt (i + 1) m found →
        ((¬ ∃ j ls, i ≤ j ∧ j < i + (cnt + 1) ∧ quorumPLSAt m j = some ls) →
          specScan (cnt + 1) i m found = .ok found) ∧
        ((∃ j ls, i ≤ j ∧ j < i + (cnt + 1) ∧ quorumPLSAt m j = some ls) →
          ∃ ls, specScan (cnt + 1) i m found = .ok (some ls) ∧ ls.isValid = true ∧
            (ls.hasQuorum).1 = true ∧ (ls.hasQuorum).2 = H) := by
      intro hqi hstep
      obtain ⟨ihA, ihB⟩ := ih (i + 1) m found hagree2 hfound
      rw [hstep]
      constructor
      · intro hne
        apply ihA
        rintro ⟨j, ls, hj1, hj2, hq2⟩
        exact hne ⟨j, ls, by omega, by omega, hq2⟩
      · rintro ⟨j, ls, hj1, hj2, hq2⟩
        apply ihB
        have hji : j ≠ i := fun hh => by
          rw [hh, hqi] at hq2
          cases hq2
        exact ⟨j, ls, by omega, by omega, hq2⟩
    rcases hmi : mlookup m i with _ | rm
    · exact hskip (quorumPLSAt_none_absent m i hmi) (specScan_absent_step _ _ _ _ hmi)
    · by_cases hv : rm.precommitLockset.isValid = true
      · rcases hq : rm.precommitLockset.hasQuorum with ⟨b, hash⟩
        cases b
        · refine hskip (quorumPLSAt_none_invalid m i rm hmi (by rw [hq]; simp)) ?_
          rw [specScan_present_step _ _ _ _ rm hmi, if_pos hv, hq]
        · have hqtrue : (rm.precommitLockset.hasQuorum).1 = true := by rw [hq]
          have hqi := quorumPLSAt_some_of m i rm hmi hv hqtrue
          have hH : (rm.precommitLockset.hasQuorum).2 = H :=
            hagree i rm.precommitLockset (le_refl i) (by omega) hqi
          have hhash : hash = H := by rw [← hH, hq]
          have hfound2 : (some rm.precommitLockset : Option PrecommitLockSet) = none ∨
              ∃ f, (some rm.precommitLockset : Option PrecommitLockSet) = some f ∧
                f.isValid = true ∧ (f.hasQuorum).1 = true ∧ (f.hasQuorum).2 = H :=
            Or.inr ⟨rm.precommitLockset, rfl, hv, hqtrue, hH⟩
          have hstep : specScan (cnt + 1) i m found =
              specScan cnt (i + 1) m (some rm.precommitLockset) := by
            rw [specScan_present_step _ _ _ _ rm hmi, if_pos hv, hq]
            rcases hfnd : found with _ | f
            · rfl
            · rcases hfound with hnone | ⟨f2, hf2, hfv, hfq, hfH⟩
              · rw [hfnd] at hnone
                cases hnone
              · rw [hfnd] at hf2
                obtain rfl := Option.some.inj hf2
                dsimp only
                rw [if_neg (by rw [hhash, hfH]; exact not_not.mpr rfl)]
          have hconc : ∃ ls, specScan (cnt + 1) i m found = .ok (some ls) ∧
              ls.isValid = true ∧ (ls.hasQuorum).1 = true ∧ (ls.hasQuorum).2 = H := by
            rw [hstep]
            obtain ⟨ihA, ihB⟩ := ih (i + 1) m (some rm.precommitLockset) hagree2 hfound2
            by_cases hrest : ∃ j ls, i + 1 ≤ j ∧ j < (i + 1) + cnt ∧ quorumPLSAt m j = some ls
            · exact ihB hrest
            · exact ⟨rm.precommitLockset, ihA hrest, hv, hqtrue, hH⟩
          exact ⟨fun hne => absurd ⟨i, rm.precommitLockset, le_refl i, by omega, hqi⟩ hne,
            fun _ => hconc⟩
      · refine hskip (quorumPLSAt_none_invalid m i rm hmi (fun hc => hv hc.1)) ?_
        rw [specScan_present_step _ _ _ _ rm hmi, if_neg hv]

lemma lastQuorumPLS_matches_scan (cc : ConsensusContract) (hm : HeightManager)
    (hnd : (mkeys hm.rounds).Nodup) :
    (match specScan (maxKey hm.rounds + 1) 0 hm.rounds none with
     | .error _ => hm.lastQuorumPrecommitLockSet cc = .error ()
     | .ok f => ∃ hm2, hm.lastQuorumPrecommitLockSet cc = .ok (f, hm2)) := by
  have hb : ∀ x ∈ mkeys hm.rounds, x < maxKey hm.rounds + 1 := fun x hx =>
    Nat.lt_succ_of_le (mem_le_foldr_max _ x hx)
  have hbr := lqpAux_bridge cc (maxKey hm.rounds + 1)
    (2 * (maxKey hm.rounds + 2) + msize hm.rounds) 0 hm none hnd hb
    (fun j hj => absurd hj (Nat.not_lt_zero j)) (Nat.zero_le _) (by omega)
  rw [Nat.sub_zero] at hbr
  rcases hscan : specScan (maxKey hm.rounds + 1) 0 hm.rounds none with e | f
  · rw [hscan] at hbr
    dsimp only at hbr ⊢
    unfold HeightManager.lastQuorumPrecommitLockSet
    rw [hbr]
  · rw [hscan] at hbr
    dsimp only at hbr ⊢
    obtain ⟨hm2, hbr2⟩ := hbr
    refine ⟨hm2, ?_⟩
    unfold HeightManager.lastQuorumPrecommitLockSet
    rw [hbr2]

/-- Claim C1: `lastQuorumPrecommitLockSet` halts the process (panics,
modelled by `Except.error`) whenever two valid precommit locksets at
different rounds of the height report quorum on two distinct blockhashes;
when all valid quorum-reporting locksets of the height agree on one hash it
returns such a lockset without halting; and when no round holds a valid
quorum precommit lockset it returns nil. -/
theorem lastQuorumPrecommitLockSet_safety (cc : ConsensusContract) (hm : HeightManager)
    (hnd : (mkeys hm.rounds).Nodup) :
    ((∃ r1 r2 rm1 rm2, r1 ≠ r2 ∧ mlookup hm.rounds r1 = some rm1 ∧
        mlookup hm.rounds r2 = some rm2 ∧
        rm1.precommitLockset.isValid = true ∧ (rm1.precommitLockset.hasQuorum).1 = true ∧
        rm2.precommitLockset.isValid = true ∧ (rm2.precommitLockset.hasQuorum).1 = true ∧
        (rm1.precommitLockset.hasQuorum).2 ≠ (rm2.precommitLockset.hasQuorum).2) →
      hm.lastQuorumPrecommitLockSet cc = .error ()) ∧
    (∀ H, (∀ r rm, mlookup hm.rounds r = some rm → rm.precommitLockset.isValid = true →
        (rm.precommitLockset.hasQuorum).1 = true → (rm.precommitLockset.hasQuorum).2 = H) →
      (∃ r rm, mlookup hm.rounds r = some rm ∧ rm.precommitLockset.isValid = true ∧
        (rm.precommitLockset.hasQuorum).1 = true) →
      ∃ ls hm2, hm.lastQuorumPrecommitLockSet cc = .ok (some ls, hm2) ∧
        ls.isValid = true ∧ (ls.hasQuorum).1 = true ∧ (ls.hasQuorum).2 = H) ∧
    ((∀ r rm, mlookup hm.rounds r = some rm →
        ¬ (rm.precommitLockset.isValid = true ∧ (rm.precommitLockset.hasQuorum).1 = true)) →
      ∃ hm2, hm.lastQuorumPrecommitLockSet cc = .ok (none, hm2)) := by
  have hmatch := lastQuorumPLS_matches_scan cc hm hnd
  have hbound : ∀ r (rm : RoundManager), mlookup hm.rounds r = some rm →
      r < maxKey hm.rounds + 1 := fun r rm hr =>
    Nat.lt_succ_of_le (mem_le_foldr_max _ r (mem_mkeys_of_mlookup _ r rm hr))
  refine ⟨?_, ?_, ?_⟩
  · rintro ⟨r1, r2, rm1, rm2, hne, hl1, hl2, hv1, hq1, hv2, hq2, hhash⟩
    have hqa1 := quorumPLSAt_some_of hm.rounds r1 rm1 hl1 hv1 hq1
    have hqa2 := quorumPLSAt_some_of hm.rounds r2 rm2 hl2 hv2 hq2
    have herr : specScan (maxKey hm.rounds + 1) 0 hm.rounds none = .error () := by
      apply specScan_two_hashes
      left
      rcases Nat.lt_or_ge r1 r2 with hlt | hge
      · exact ⟨rfl, r1, r2, rm1.precommitLockset, rm2.precommitLockset, Nat.zero_le r1, hlt,
          by have := hbound r2 rm2 hl2; omega, hqa1, hqa2, hhash⟩
      · have hlt : r2 < r1 := by omega
        exact ⟨rfl, r2, r1, rm2.precommitLockset, rm1.precommitLockset, Nat.zero_le r2, hlt,
          by have := hbound r1 rm1 hl1; omega, hqa2, hqa1, fun hh => hhash hh.symm⟩
    rw [herr] at hmatch
    exact hmatch
  · rintro H hagree ⟨r, rm, hl, hv, hq⟩
    have hagree2 : ∀ j ls, 0 ≤ j → j < 0 + (maxKey hm.rounds + 1) →
        quorumPLSAt hm.rounds j = some ls → (ls.hasQuorum).2 = H := by
      intro j ls _ _ hqat
      obtain ⟨rmj, hlj, rfl, hvj, hqj⟩ := quorumPLSAt_inv hm.rounds j ls hqat
      exact hagree j rmj hlj hvj hqj
    obtain ⟨_, hB⟩ := specScan_agree H (maxKey hm.rounds + 1) 0 hm.rounds none hagree2
      (Or.inl rfl)
    obtain ⟨ls, hsc, hlsv, hlsq, hlsh⟩ := hB
      ⟨r, rm.precommitLockset, Nat.zero_le r,
        by have := hbound r rm hl; omega, quorumPLSAt_some_of hm.rounds r rm hl hv hq⟩
    rw [hsc] at hmatch
    dsimp only at hmatch
    obtain ⟨hm2, heq⟩ := hmatch
    exact ⟨ls, hm2, heq, hlsv, hlsq, hlsh⟩
  · intro hnone
    have hagree2 : ∀ j ls, 0 ≤ j → j < 0 + (maxKey hm.rounds + 1) →
        quorumPLSAt hm.rounds j = some ls → (ls.hasQuorum).2 = 0 := by
      intro j ls _ _ hqat
      obtain ⟨rmj, hlj, rfl, hvj, hqj⟩ := quorumPLSAt_inv hm.rounds j ls hqat
      exact absurd ⟨hvj, hqj⟩ (hnone j rmj hlj)
    obtain ⟨hA, _⟩ := specScan_agree 0 (maxKey hm.rounds + 1) 0 hm.rounds none hagree2
      (Or.inl rfl)
    have hsc := hA (by
      rintro ⟨j, ls, _, _, hqat⟩
      obtain ⟨rmj, hlj, rfl, hvj, hqj⟩ := quorumPLSAt_inv hm.rounds j ls hqat
      exact absurd ⟨hvj, hqj⟩ (hnone j rmj hlj))
    rw [hsc] at hmatch
    dsimp only at hmatch
    exact hmatch

theorem lastQuorumPrecommitLockSet_safety_witness :
    ∃ hm2, HeightManager.lastQuorumPrecommitLockSet ccEx
      (⟨1, [], 0⟩ : HeightManager) = .ok (none, hm2) :=
  (lastQuorumPrecommitLockSet_safety ccEx (⟨1, [], 0⟩ : HeightManager)
    (by simp [mkeys])).2.2 (fun r rm hr => by simp [mlookup] at hr)

end BFT
